import Mathlib

/-!
Verification of the EPUB editor's conversion core (`src/epub_editor.py`).

The embedding models, at the character-list level, the Python string and
`re` operations the core uses:

* `_markdown_to_html` (lines 497-519): three `re.sub` heading passes
  (`^#\s+(.+)$`, `^##\s+(.+)$`, `^###\s+(.+)$`, MULTILINE), then the
  global non-greedy inline passes `\*\*(.+?)\*\*`, `\*(.+?)\*`,
  `__(.+?)__`, then `split('\n\n')` paragraph wrapping;
* `_html_to_markdown` (lines 476-495): a flat document-order scan over
  the supported elements;
* `_load_full_book` (lines 452-474): the `=== title ===` join;
* `_save_epub_to_path` (lines 547-597): the positional
  `re.split(r'^=== (.+?) ===$', ..., MULTILINE)` full-book commit and
  the single-chapter commit;
* `_load_epub_file` (lines 402-421): chapter-title extraction.

Regex passes are modelled by direct scanners that mirror Python `re`
semantics for these specific patterns: matches are leftmost and
non-overlapping, `.` never matches a newline, `^`/`$` are line anchors
under MULTILINE, `(.+?)` takes the shortest capture and `\s+`/`(.+)` the
longest, with backtracking.  Scanners that restart past a replacement
use an explicit fuel argument (one unit per consumed character bounds
the recursion), keeping every definition structurally recursive and
kernel-evaluable.  Whitespace is ASCII whitespace (the `\s` class and
`str.strip` additionally cover some Unicode space; the buffers treated
here are ASCII).
-/

namespace Epub

/-- Python's whitespace class over ASCII: the characters matched by `\s`
and stripped by `str.strip`. -/
def isPySpace (c : Char) : Bool :=
  c = ' ' || c = '\t' || c = '\n' || c = '\r' || c = '\x0b' || c = '\x0c'

/-- Left part of Python `str.strip`. -/
def lstripL (l : List Char) : List Char := l.dropWhile isPySpace

/-- Right part of Python `str.strip`. -/
def rstripL (l : List Char) : List Char := (l.reverse.dropWhile isPySpace).reverse

/-- Python `str.strip()` on a character list. -/
def stripL (l : List Char) : List Char := rstripL (lstripL l)

/-- Python `str.strip()`. -/
def pyStrip (s : String) : String := ⟨stripL s.data⟩

/-- `a` begins the list `l`. -/
def leadsWith : List Char → List Char → Bool
  | [], _ => true
  | _ :: _, [] => false
  | p :: ps, c :: cs => p = c && leadsWith ps cs

/-- `a` ends the list `l`. -/
def trailsWith (a l : List Char) : Bool := leadsWith a.reverse l.reverse

/-- `pat` occurs somewhere inside `l`. -/
def hasSub (pat : List Char) : List Char → Bool
  | [] => leadsWith pat []
  | c :: rest => leadsWith pat (c :: rest) || hasSub pat rest

/-- Split on `'\n'`, Python line structure (`str.split('\n')`). -/
def splitNl : List Char → List (List Char)
  | [] => [[]]
  | c :: rest =>
    if c = '\n' then [] :: splitNl rest
    else
      match splitNl rest with
      | [] => [[c]]
      | g :: gs => (c :: g) :: gs

/-- Rejoin what `splitNl` produced (intercalate a newline). -/
def joinNl : List (List Char) → List Char
  | [] => []
  | g :: gs =>
    match gs with
    | [] => g
    | _ :: _ => g ++ '\n' :: joinNl gs

/-- Python `str.split('\n\n')`: leftmost, non-overlapping. -/
def splitBlank : List Char → List (List Char)
  | [] => [[]]
  | [c] => [[c]]
  | c :: d :: rest =>
    if c = '\n' && d = '\n' then [] :: splitBlank rest
    else
      match splitBlank (d :: rest) with
      | [] => [[c]]
      | g :: gs => (c :: g) :: gs

/-!
### Heading passes

`re.sub(r'^#\s+(.+)$', r'<h1>\1</h1>', text, flags=re.MULTILINE)` and its
`##`/`###` analogues.  A match begins only at a line start; `\s+` is
greedy and may also consume newlines; `(.+)` then runs to the end of the
line it starts on.  When `\s+` reaches the end of the text, the engine
backtracks: the last non-newline whitespace character becomes the
capture when one is available past the first whitespace character.
-/

/-- Attempt the heading pattern at a line start.  `hs` is the literal
run of `#` characters.  Returns the capture and the unconsumed rest. -/
def headMatch (hs l : List Char) : Option (List Char × List Char) :=
  if leadsWith hs l then
    let l' := l.drop hs.length
    let w := l'.takeWhile isPySpace
    let r := l'.dropWhile isPySpace
    if w.isEmpty then none
    else if r.isEmpty then
      -- `\s+` consumed a whitespace run reaching the end of the text;
      -- backtrack to let `(.+)$` take the last non-newline whitespace char.
      let rev := (w.drop 1).reverse
      let nls := rev.takeWhile (fun c => c = '\n')
      match rev.dropWhile (fun c => c = '\n') with
      | [] => none
      | c :: _ => some ([c], nls.reverse)
    else
      some (r.takeWhile (fun c => !(c = '\n')), r.dropWhile (fun c => !(c = '\n')))
  else none

/-- One heading substitution pass.  The `Bool` tracks whether the scanner
stands at a line start; fuel decreases once per step. -/
def headFuel (hs opn cls : List Char) : Nat → Bool → List Char → List Char
  | 0, _, l => l
  | _ + 1, _, [] => []
  | n + 1, atStart, c :: rest =>
    if atStart then
      match headMatch hs (c :: rest) with
      | some (cap, rem) => opn ++ cap ++ cls ++ headFuel hs opn cls n false rem
      | none => c :: headFuel hs opn cls n (c = '\n') rest
    else c :: headFuel hs opn cls n (c = '\n') rest

/-- Heading pass at level `k` (the source applies levels 1, 2, 3). -/
def headPass (k : Nat) (opn cls : List Char) (l : List Char) : List Char :=
  headFuel (List.replicate k '#') opn cls l.length true l

/-!
### Inline passes

`re.sub(r'\*\*(.+?)\*\*', ...)`, `re.sub(r'\*(.+?)\*', ...)`,
`re.sub(r'__(.+?)__', ...)`, global and non-greedy.
-/

/-- Find the shortest non-empty newline-free capture followed by the
two-character closer `m m`.  Returns capture and the rest after the
closer.  A list too short to hold a capture and a closer yields none. -/
def pairClose (m : Char) : List Char → Option (List Char × List Char)
  | c :: d :: e :: rest =>
    if c = '\n' then none
    else if d = m && e = m then some ([c], rest)
    else
      match pairClose m (d :: e :: rest) with
      | some (cap, tail) => some (c :: cap, tail)
      | none => none
  | _ => none

/-- Substitution pass for a two-character marker (`**` or `__`). -/
def pairFuel (m : Char) (opn cls : List Char) : Nat → List Char → List Char
  | 0, l => l
  | _ + 1, [] => []
  | _ + 1, [c] => [c]
  | n + 1, c :: d :: rest =>
    if c = m && d = m then
      match pairClose m rest with
      | some (cap, tail) => opn ++ cap ++ cls ++ pairFuel m opn cls n tail
      | none => c :: pairFuel m opn cls n (d :: rest)
    else c :: pairFuel m opn cls n (d :: rest)

/-- Find the shortest non-empty newline-free capture followed by a
single `'*'` closer. -/
def emClose : List Char → Option (List Char × List Char)
  | c :: d :: rest =>
    if c = '\n' then none
    else if d = '*' then some ([c], rest)
    else
      match emClose (d :: rest) with
      | some (cap, tail) => some (c :: cap, tail)
      | none => none
  | _ => none

/-- Substitution pass for the single-`*` italic marker. -/
def emFuel (opn cls : List Char) : Nat → List Char → List Char
  | 0, l => l
  | _ + 1, [] => []
  | n + 1, c :: rest =>
    if c = '*' then
      match emClose rest with
      | some (cap, tail) => opn ++ cap ++ cls ++ emFuel opn cls n tail
      | none => c :: emFuel opn cls n rest
    else c :: emFuel opn cls n rest

/-- The three heading substitutions of `_markdown_to_html`, in source
order: `h1`, then `h2`, then `h3`. -/
def headsubbed (l : List Char) : List Char :=
  headPass 3 "<h3>".data "</h3>".data
    (headPass 2 "<h2>".data "</h2>".data
      (headPass 1 "<h1>".data "</h1>".data l))

/-- The bold substitution (source line 505). -/
def boldPass (l : List Char) : List Char :=
  pairFuel '*' "<strong>".data "</strong>".data l.length l

/-- The italic substitution (source line 506). -/
def emPass (l : List Char) : List Char := emFuel "<em>".data "</em>".data l.length l

/-- The underline substitution (source line 507). -/
def uPass (l : List Char) : List Char := pairFuel '_' "<u>".data "</u>".data l.length l

/-- The six substitution passes of `_markdown_to_html`, in source order:
`h1`, `h2`, `h3`, bold, italic, underline. -/
def substituted (l : List Char) : List Char := uPass (emPass (boldPass (headsubbed l)))

/-- One block of the paragraph step: strip, drop if empty, emit verbatim
if it starts with `<h`, otherwise wrap in `<p>...</p>` (source lines
512-517). -/
def wrapBlock (b : List Char) : Option (List Char) :=
  if (stripL b).isEmpty then none
  else if leadsWith "<h".data (stripL b) then some (stripL b)
  else some ("<p>".data ++ stripL b ++ "</p>".data)

/-- The paragraph-wrapping step of `_markdown_to_html` (lines 509-519). -/
def wrapParas (l : List Char) : List Char :=
  joinNl ((splitBlank l).filterMap wrapBlock)

/-- `_markdown_to_html` on a character list. -/
def markdownToHtmlL (l : List Char) : List Char := wrapParas (substituted l)

/-- `_markdown_to_html` (source lines 497-519). -/
def markdownToHtml (s : String) : String := ⟨markdownToHtmlL s.data⟩

/-!
### HTML → markup (`_html_to_markdown`, source lines 476-495)

The source walks `soup.find_all(['h1',...,'p','strong','b','em','i','u'])`
in document order and emits one fragment per element.  A fragment whose
elements are a flat sequence of these tags is modelled as the list of
(tag, text) pairs in document order; `get_text()` of an element is its
`text` field.
-/

/-- One supported element of a parsed chapter fragment: tag plus the
element's `get_text()` result. -/
inductive Elem
  | h (level : Nat) (text : String)
  | p (text : String)
  | strong (text : String)
  | em (text : String)
  | u (text : String)
deriving DecidableEq

/-- Concatenation of character lists. -/
def catL : List (List Char) → List Char
  | [] => []
  | g :: gs => g ++ catL gs

/-- The markup fragment `_html_to_markdown` emits for one element
(source lines 481-493); `b` is handled like `strong` and `i` like `em`,
so they share a constructor. -/
def elemMarkup : Elem → List Char
  | .h k t => List.replicate k '#' ++ ' ' :: stripL t.data ++ ['\n', '\n']
  | .p t => let x := stripL t.data; if x.isEmpty then [] else x ++ ['\n', '\n']
  | .strong t => '*' :: '*' :: stripL t.data ++ ['*', '*']
  | .em t => '*' :: stripL t.data ++ ['*']
  | .u t => '_' :: '_' :: stripL t.data ++ ['_', '_']

/-- `_html_to_markdown` on a flat fragment, as a character list. -/
def htmlToMarkdownL (es : List Elem) : List Char := stripL (catL (es.map elemMarkup))

/-- `_html_to_markdown` (source lines 476-495). -/
def htmlToMarkdown (es : List Elem) : String := ⟨htmlToMarkdownL es⟩

/-!
### Chapter model and full-book join/split
-/

/-- One chapter of the loaded book: the display title fixed at load
time, the parse of the underlying document item's content at load time,
and the item's current raw content. -/
structure Chapter where
  title : String
  doc : List Elem
  itemContent : String
deriving DecidableEq

/-- The raw concatenation `_load_full_book` accumulates before its final
strip: for each chapter `=== title ===`, a blank line, the chapter's
markup, a blank line. -/
def joinRaw (chs : List Chapter) : List Char :=
  catL (chs.map fun ch =>
    "=== ".data ++ ch.title.data ++ " ===".data ++
      '\n' :: '\n' :: (htmlToMarkdownL ch.doc ++ ['\n', '\n']))

/-- `_load_full_book` (source lines 452-474): for each chapter emit
`=== title ===`, a blank line, the chapter's markup, a blank line;
finally `str.strip` the result. -/
def loadFullBook (chs : List Chapter) : String := ⟨stripL (joinRaw chs)⟩

/-- A whole line matching `^=== (.+?) ===$`: the literal opener, at
least one (non-newline) captured character, the literal closer. -/
def isDelimL (l : List Char) : Bool :=
  leadsWith "=== ".data l && trailsWith " ===".data l && decide (9 ≤ l.length)

/-- The captured group of a delimiter line. -/
def delimTitleL (l : List Char) : List Char := (l.drop 4).take (l.length - 8)

/-- Group the line list of the buffer at its delimiter lines: returns
the lines before the first delimiter, then for each delimiter its
captured title with the following non-delimiter lines. -/
def splitDelims : List (List Char) → List (List Char) × List (List Char × List (List Char))
  | [] => ([], [])
  | l :: rest =>
    if isDelimL l then ([], (delimTitleL l, (splitDelims rest).1) :: (splitDelims rest).2)
    else (l :: (splitDelims rest).1, (splitDelims rest).2)

/-- Reassemble per-delimiter body slots exactly as `re.split` returns
them: a body slot keeps the newline that followed its delimiter line and
(when another delimiter follows) the newline that precedes the next
delimiter line. -/
def glueBodies : List (List Char × List (List Char)) → List (List Char × List Char)
  | [] => []
  | (t, g) :: rest =>
    match rest with
    | [] => [(t, joinNl ([] :: g))]
    | _ :: _ => (t, joinNl ([] :: (g ++ [[]]))) :: glueBodies rest

/-- The (captured title, body slot) pairs that
`re.split(r'^=== (.+?) ===$', content, flags=re.MULTILINE)` yields at
odd/even positions 1,2 then 3,4 … after the ignored leading slot; the
content is `str.strip`ped first (source lines 573-574). -/
def delimPairsL (buffer : List Char) : List (List Char × List Char) :=
  glueBodies (splitDelims (splitNl (stripL buffer))).2

/-- `delimPairsL` at the `String` level. -/
def delimPairs (buffer : String) : List (List Char × List Char) := delimPairsL buffer.data

/-- `n` spaces. -/
def spaces (n : Nat) : String := ⟨List.replicate n ' '⟩

/-- The f-string document skeleton of `_save_epub_to_path`, with the
indentation the triple-quoted literal carries (`ind` = 20 in chapter
mode, 24 in full-book mode). -/
def htmlSkeleton (ind : Nat) (title body : String) : String :=
  "\n" ++ spaces ind ++ "<html>\n" ++ spaces ind ++ "<head>\n" ++
    spaces (ind + 4) ++ "<title>" ++ title ++ "</title>\n" ++
    spaces ind ++ "</head>\n" ++ spaces ind ++ "<body>\n" ++
    spaces (ind + 4) ++ body ++ "\n" ++
    spaces ind ++ "</body>\n" ++ spaces ind ++ "</html>\n" ++ spaces ind

/-- The document written for a chapter in chapter mode (lines 559-568). -/
def chapterHtmlDoc (title body : String) : String := htmlSkeleton 20 title body

/-- The document written for a chapter in full-book mode (lines 585-594). -/
def fullBookHtmlDoc (title body : String) : String := htmlSkeleton 24 title body

/-- The full-book commit loop (lines 576-597): the k-th delimiter's body
slot is stripped, converted, wrapped in the skeleton carrying the k-th
chapter's stored title, and written into the k-th chapter's item;
chapters beyond the delimiter count keep their content, delimiters
beyond the chapter count are dropped.  The captured title of a pair is
never read. -/
def updateChapters : List Chapter → List (List Char × List Char) → List Chapter
  | chs, [] => chs
  | [], _ => []
  | ch :: chs, (_t, body) :: rest =>
    { ch with itemContent :=
        fullBookHtmlDoc ch.title (markdownToHtml ⟨stripL body⟩) } :: updateChapters chs rest

/-- `_save_epub_to_path` in full-book view (lines 571-597), as the state
transformation it applies to the chapter list. -/
def commitFullBook (chs : List Chapter) (buffer : String) : List Chapter :=
  updateChapters chs (delimPairs buffer)

/-- `_save_epub_to_path` in chapter view (lines 550-570): only the
chapter at `idx` (when in range) gets new content, built from its own
stored title and the stripped, converted buffer. -/
def commitChapterAux (buffer : String) : List Chapter → Nat → List Chapter
  | [], _ => []
  | ch :: chs, 0 =>
    { ch with itemContent :=
        chapterHtmlDoc ch.title (markdownToHtml (pyStrip buffer)) } :: chs
  | ch :: chs, n + 1 => ch :: commitChapterAux buffer chs n

/-- Chapter-view commit entry point. -/
def commitChapterEdit (chs : List Chapter) (idx : Nat) (buffer : String) : List Chapter :=
  commitChapterAux buffer chs idx

/-!
### Load (`_load_epub_file`, source lines 402-421)
-/

/-- One item of the source EPUB, as the EPUB library exposes it: whether
it is a document item, the `get_text()` of its `<title>` element when
the parsed content has one, its parse, and its raw content. -/
structure SourceItem where
  isDocument : Bool
  titleTag : Option String
  doc : List Elem
  raw : String
deriving DecidableEq

/-- The title stored for the `n`-th (0-based) document item: the trimmed
`<title>` text when present, else `"Chapter (n+1)"` (line 413: the count
of chapters appended so far, plus one). -/
def chapterTitle (it : SourceItem) (n : Nat) : String :=
  match it.titleTag with
  | some t => pyStrip t
  | none => "Chapter " ++ toString (n + 1)

/-- The chapter-extraction loop of `_load_epub_file` (lines 406-421);
`n` counts document items already taken. -/
def loadChaptersFrom : Nat → List SourceItem → List Chapter
  | _, [] => []
  | n, it :: rest =>
    if it.isDocument then
      { title := chapterTitle it n, doc := it.doc, itemContent := it.raw } ::
        loadChaptersFrom (n + 1) rest
    else loadChaptersFrom n rest

/-- Chapter list built on load. -/
def loadChapters (items : List SourceItem) : List Chapter := loadChaptersFrom 0 items

/-!
## Characterizations of the commit operations
-/

/-- What the full-book commit loop does at an index with no delimiter
pair: the chapter is untouched. -/
theorem updateChapters_get?_none (chs : List Chapter) (ps : List (List Char × List Char))
    (i : Nat) (h : ps.get? i = none) :
    (updateChapters chs ps).get? i = chs.get? i := by
  induction chs generalizing ps i with
  | nil => cases ps <;> simp [updateChapters]
  | cons ch chs ih =>
    cases ps with
    | nil => simp [updateChapters]
    | cons pr ps =>
      cases i with
      | zero => simp at h
      | succ i =>
        simp only [List.get?_cons_succ] at h
        simpa [updateChapters] using ih ps i h

/-- What the full-book commit loop does at an index holding a delimiter
pair: the chapter gets the rebuilt document around its own stored title
and the pair's stripped, converted body. -/
theorem updateChapters_get?_some (chs : List Chapter) (ps : List (List Char × List Char))
    (i : Nat) (pr : List Char × List Char) (h : ps.get? i = some pr) :
    (updateChapters chs ps).get? i =
      (chs.get? i).map (fun ch =>
        { ch with itemContent := fullBookHtmlDoc ch.title (markdownToHtml ⟨stripL pr.2⟩) }) := by
  induction chs generalizing ps i with
  | nil => cases ps <;> simp [updateChapters]
  | cons ch chs ih =>
    cases ps with
    | nil => simp at h
    | cons q ps =>
      cases i with
      | zero =>
        simp only [List.get?_cons_zero, Option.some_inj] at h
        subst h
        rfl
      | succ i =>
        simp only [List.get?_cons_succ] at h
        simpa [updateChapters] using ih ps i h

/-- Length is preserved by the full-book commit loop. -/
theorem updateChapters_length (chs : List Chapter) (ps : List (List Char × List Char)) :
    (updateChapters chs ps).length = chs.length := by
  induction chs generalizing ps with
  | nil => cases ps <;> rfl
  | cons ch chs ih => cases ps with
    | nil => rfl
    | cons pr ps => simpa [updateChapters] using ih ps

/-- The chapter-mode commit leaves every index other than the selected
one untouched. -/
theorem commitChapterAux_get?_ne (buffer : String) (chs : List Chapter) (idx i : Nat)
    (h : i ≠ idx) :
    (commitChapterAux buffer chs idx).get? i = chs.get? i := by
  induction chs generalizing idx i with
  | nil => simp [commitChapterAux]
  | cons ch chs ih =>
    cases idx with
    | zero =>
      cases i with
      | zero => exact absurd rfl h
      | succ i => simp [commitChapterAux]
    | succ idx =>
      cases i with
      | zero => simp [commitChapterAux]
      | succ i =>
        simpa [commitChapterAux] using ih idx i (fun he => h (by rw [he]))

/-- The chapter-mode commit rewrites the selected chapter's content with
the skeleton around its own stored title. -/
theorem commitChapterAux_get?_eq (buffer : String) (chs : List Chapter) (idx : Nat) :
    (commitChapterAux buffer chs idx).get? idx =
      (chs.get? idx).map (fun ch =>
        { ch with itemContent := chapterHtmlDoc ch.title (markdownToHtml (pyStrip buffer)) }) := by
  induction chs generalizing idx with
  | nil => simp [commitChapterAux]
  | cons ch chs ih =>
    cases idx with
    | zero => rfl
    | succ idx => simpa [commitChapterAux] using ih idx

/-!
## Claims
-/

/-- Claim C1: the full-book commit assigns bodies to chapters purely by
position.  First conjunct: the commit loop's result depends only on the
body slots of the split, never on the captured delimiter titles.
Second conjunct: over chapters `[A, B]` with arbitrary stored titles and
contents, a buffer with delimiters `=== X ===` / `=== Y ===` updates
chapter 0 with `bodyX` and chapter 1 with `bodyY`, the rebuilt documents
carrying the chapters' stored titles. -/
theorem claim_C1 :
    (∀ (chs : List Chapter) (ps ps' : List (List Char × List Char)),
      ps.map Prod.snd = ps'.map Prod.snd → updateChapters chs ps = updateChapters chs ps') ∧
    (∀ tA tB dA dB cA cB,
      commitFullBook [⟨tA, dA, cA⟩, ⟨tB, dB, cB⟩]
          "=== X ===\n\nbodyX\n\n=== Y ===\n\nbodyY" =
        [⟨tA, dA, fullBookHtmlDoc tA (markdownToHtml "bodyX")⟩,
         ⟨tB, dB, fullBookHtmlDoc tB (markdownToHtml "bodyY")⟩]) := by
  constructor
  · intro chs ps ps' h
    apply List.ext_get?
    intro i
    have hsnd : (ps.get? i).map Prod.snd = (ps'.get? i).map Prod.snd := by
      rw [← List.get?_map, ← List.get?_map, h]
    cases hp : ps.get? i with
    | none =>
      cases hp' : ps'.get? i with
      | none => rw [updateChapters_get?_none _ _ _ hp, updateChapters_get?_none _ _ _ hp']
      | some pr' => rw [hp, hp'] at hsnd; simp at hsnd
    | some pr =>
      cases hp' : ps'.get? i with
      | none => rw [hp, hp'] at hsnd; simp at hsnd
      | some pr' =>
        rw [hp, hp'] at hsnd
        have h2 : pr.2 = pr'.2 := by simpa using hsnd
        rw [updateChapters_get?_some _ _ _ _ hp, updateChapters_get?_some _ _ _ _ hp', h2]
  · intro tA tB dA dB cA cB
    rfl

/-- Witness for C1: the first conjunct applied at delimiter pairs that
differ only in their captured titles. -/
theorem claim_C1_witness :
    updateChapters [⟨"A", [], "c"⟩] [(['X'], ['b'])] =
      updateChapters [⟨"A", [], "c"⟩] [(['Y'], ['b'])] :=
  claim_C1.1 _ _ _ (by decide)

/-- Claim C5 counterexample: the conversion of `**bold** and *italic*`
is not the bare string `<strong>bold</strong> and <em>italic</em>`; the
paragraph step wraps it in `<p>...</p>`. -/
theorem claim_C5_counterexample :
    markdownToHtml "**bold** and *italic*" ≠
      "<strong>bold</strong> and <em>italic</em>" := by decide

/-- Claim C5 (amended): bold is substituted before italic, so the
substitution passes turn `**bold** and *italic*` into exactly
`<strong>bold</strong> and <em>italic</em>` with no double-processing,
and the full conversion wraps that result in a single paragraph. -/
theorem claim_C5 :
    substituted "**bold** and *italic*".data =
        "<strong>bold</strong> and <em>italic</em>".data ∧
      markdownToHtml "**bold** and *italic*" =
        "<p><strong>bold</strong> and <em>italic</em></p>" := by
  constructor <;> decide

/-- Claim C3 counterexample: chapters `[A, B]`; the delimiter line
`=== A ===` is deleted from the buffer before the split.  The chapter
corresponding to the deleted delimiter (index 0) is not left
unmodified: positional matching hands it the body that follows
`=== B ===`. -/
theorem claim_C3_counterexample :
    ((commitFullBook [⟨"A", [], "origA"⟩, ⟨"B", [], "origB"⟩]
        "bodyA\n\n=== B ===\n\nbodyB").get? 0).map Chapter.itemContent ≠
      some "origA" := by decide

/-- Claim C3 (amended): after a full-book commit the chapters left
unmodified are exactly those with no delimiter at their position: every
chapter whose index is at least the number of delimiters found keeps its
stored content (so deleting one delimiter leaves the last chapter, not
the deleted delimiter's chapter, unmodified), and delimiters beyond the
chapter count are ignored — the chapter list keeps its length and no
commit ever fails. -/
theorem claim_C3 (chs : List Chapter) (buffer : String) :
    (commitFullBook chs buffer).length = chs.length ∧
    ∀ j, (delimPairs buffer).length ≤ j →
      (commitFullBook chs buffer).get? j = chs.get? j := by
  refine ⟨updateChapters_length _ _, fun j hj => ?_⟩
  exact updateChapters_get?_none _ _ _ (List.get?_eq_none.mpr hj)

/-- Witness for C3: two chapters, a buffer holding a single delimiter
(the first one deleted); the theorem leaves chapter 1 untouched. -/
theorem claim_C3_witness :
    (commitFullBook [⟨"A", [], "origA"⟩, ⟨"B", [], "origB"⟩]
          "bodyA\n\n=== B ===\n\nbodyB").length = 2 ∧
      (commitFullBook [⟨"A", [], "origA"⟩, ⟨"B", [], "origB"⟩]
          "bodyA\n\n=== B ===\n\nbodyB").get? 1 = some ⟨"B", [], "origB"⟩ := by
  have h := claim_C3 [⟨"A", [], "origA"⟩, ⟨"B", [], "origB"⟩] "bodyA\n\n=== B ===\n\nbodyB"
  exact ⟨h.1, h.2 1 (by decide)⟩

/-- Claim C9: stored titles are immutable under both commit operations,
and whenever a commit rewrites a chapter's content, the rebuilt document
is the skeleton around the chapter's own stored (load-time) title — the
delimiter title captured from the buffer is discarded. -/
theorem claim_C9 (chs : List Chapter) (buffer : String) :
    (∀ i, ((commitFullBook chs buffer).get? i).map Chapter.title =
      (chs.get? i).map Chapter.title) ∧
    (∀ idx i, ((commitChapterEdit chs idx buffer).get? i).map Chapter.title =
      (chs.get? i).map Chapter.title) ∧
    (∀ i ch', (commitFullBook chs buffer).get? i = some ch' →
      ∃ ch, chs.get? i = some ch ∧ ch'.title = ch.title ∧
        (ch'.itemContent = ch.itemContent ∨
          ∃ body, ch'.itemContent = fullBookHtmlDoc ch.title body)) ∧
    (∀ idx i ch', (commitChapterEdit chs idx buffer).get? i = some ch' →
      ∃ ch, chs.get? i = some ch ∧ ch'.title = ch.title ∧
        (ch'.itemContent = ch.itemContent ∨
          ∃ body, ch'.itemContent = chapterHtmlDoc ch.title body)) := by
  refine ⟨fun i => ?_, fun idx i => ?_, fun i ch' h => ?_, fun idx i ch' h => ?_⟩
  · rw [commitFullBook]
    cases hp : (delimPairs buffer).get? i with
    | none => rw [updateChapters_get?_none _ _ _ hp]
    | some pr =>
      rw [updateChapters_get?_some _ _ _ _ hp]
      cases chs.get? i <;> rfl
  · rw [commitChapterEdit]
    by_cases hi : i = idx
    · subst hi
      rw [commitChapterAux_get?_eq]
      cases chs.get? i <;> rfl
    · rw [commitChapterAux_get?_ne _ _ _ _ hi]
  · rw [commitFullBook] at h
    cases hp : (delimPairs buffer).get? i with
    | none =>
      rw [updateChapters_get?_none _ _ _ hp] at h
      exact ⟨ch', h, rfl, Or.inl rfl⟩
    | some pr =>
      rw [updateChapters_get?_some _ _ _ _ hp] at h
      cases hc : chs.get? i with
      | none => rw [hc] at h; simp at h
      | some ch =>
        rw [hc] at h
        have h' : _ = ch' := Option.some_inj.mp h
        exact ⟨ch, rfl, by rw [← h'], Or.inr ⟨_, by rw [← h']⟩⟩
  · rw [commitChapterEdit] at h
    by_cases hi : i = idx
    · subst hi
      rw [commitChapterAux_get?_eq] at h
      cases hc : chs.get? i with
      | none => rw [hc] at h; simp at h
      | some ch =>
        rw [hc] at h
        have h' : _ = ch' := Option.some_inj.mp h
        exact ⟨ch, rfl, by rw [← h'], Or.inr ⟨_, by rw [← h']⟩⟩
    · rw [commitChapterAux_get?_ne _ _ _ _ hi] at h
      exact ⟨ch', h, rfl, Or.inl rfl⟩

/-- Witness for C9: a concrete commit on one chapter; the title survives
and the rewritten content carries the stored title `A`, not the buffer's
delimiter title `X`. -/
theorem claim_C9_witness :
    ((commitFullBook [⟨"A", [], "c"⟩] "=== X ===\n\nbody").get? 0).map Chapter.title =
      some "A" :=
  (claim_C9 [⟨"A", [], "c"⟩] "=== X ===\n\nbody").1 0

/-- The load loop, indexed against the document-type items in source
order. -/
theorem loadChaptersFrom_get? (items : List SourceItem) (n k : Nat) :
    (loadChaptersFrom n items).get? k =
      ((items.filter (fun it => it.isDocument)).get? k).map
        (fun it => ⟨chapterTitle it (n + k), it.doc, it.raw⟩) := by
  induction items generalizing n k with
  | nil => simp [loadChaptersFrom]
  | cons it rest ih =>
    by_cases hd : it.isDocument
    · rw [loadChaptersFrom, if_pos hd, List.filter_cons_of_pos (by simpa using hd)]
      cases k with
      | zero => simp
      | succ k =>
        simp only [List.get?_cons_succ]
        rw [ih (n + 1) k]
        have : n + 1 + k = n + (k + 1) := by omega
        rw [this]
    · rw [loadChaptersFrom, if_neg hd, List.filter_cons_of_neg (by simpa using hd)]
      exact ih n k

/-- Claim C8: on load, the chapter built from the `k`-th (0-based)
document-type item carries that item's parse and raw content, and its
title is the trimmed `<title>` text when the item has a `<title>`
element, else `"Chapter (k+1)"` — the 1-based position among document
items. -/
theorem claim_C8 (items : List SourceItem) (k : Nat) (it : SourceItem)
    (h : (items.filter (fun i => i.isDocument)).get? k = some it) :
    (loadChapters items).get? k =
      some ⟨(match it.titleTag with
             | some t => pyStrip t
             | none => "Chapter " ++ toString (k + 1)), it.doc, it.raw⟩ := by
  rw [loadChapters, loadChaptersFrom_get? items 0 k, h, Nat.zero_add]
  rfl

/-!
## Behaviour of the substitution passes on marker-free text

The regex passes only fire on their marker characters, so text free of
a pass's marker goes through unchanged.
-/

/-- `dropWhile` passes over a leading chunk and stops no later than a
failing element. -/
theorem dropWhile_append_stop (p : Char → Bool) (a r : List Char) (x : Char)
    (hx : p x = false) :
    List.dropWhile p (a ++ x :: r) = List.dropWhile p a ++ x :: r := by
  induction a with
  | nil => simp [List.dropWhile_cons, hx]
  | cons c a ih =>
    cases hpc : p c with
    | true => simp only [List.cons_append, List.dropWhile_cons, hpc, if_true, ih]
    | false => simp only [List.cons_append, List.dropWhile_cons, hpc, Bool.false_eq_true, if_false]

/-- A list of whitespace characters strips to nothing. -/
theorem stripL_eq_nil (l : List Char) (h : ∀ c ∈ l, isPySpace c) : stripL l = [] := by
  have h1 : lstripL l = [] := List.dropWhile_eq_nil_iff.mpr h
  rw [stripL, h1]
  rfl

/-- The heading pattern needs a `#`; text without one never matches. -/
theorem headMatch_none (hs l : List Char) (h : '#' ∉ l) :
    headMatch ('#' :: hs) l = none := by
  cases l with
  | nil => rfl
  | cons c rest =>
    have hc : ('#' : Char) ≠ c := fun he => h (he ▸ List.mem_cons_self c rest)
    rw [headMatch, leadsWith]
    simp [hc]

/-- A heading pass leaves `#`-free text unchanged. -/
theorem headFuel_id (hs opn cls : List Char) :
    ∀ (n : Nat) (b : Bool) (l : List Char), l.length ≤ n → '#' ∉ l →
      headFuel ('#' :: hs) opn cls n b l = l := by
  intro n
  induction n with
  | zero => intro b l _ _; rfl
  | succ n ih =>
    intro b l hlen hmem
    cases l with
    | nil => rfl
    | cons c rest =>
      have hrest : '#' ∉ rest := fun hm => hmem (List.mem_cons_of_mem c hm)
      have hlen' : rest.length ≤ n := by simpa using hlen
      cases b with
      | true =>
        rw [headFuel, headMatch_none _ _ hmem]
        simp only [if_true]
        rw [ih _ rest hlen' hrest]
      | false =>
        rw [headFuel]
        simp only [Bool.false_eq_true, if_false]
        rw [ih _ rest hlen' hrest]

/-- No two-character closer exists in marker-free text. -/
theorem pairClose_none (m : Char) : ∀ (l : List Char), m ∉ l → pairClose m l = none := by
  intro l
  induction l with
  | nil => intro _; rfl
  | cons c rest ih =>
    intro hmem
    have hrest : m ∉ rest := fun hm => hmem (List.mem_cons_of_mem c hm)
    cases rest with
    | nil => rfl
    | cons d rest2 =>
      cases rest2 with
      | nil => rfl
      | cons e rest3 =>
        have hd : d ≠ m := fun he => hrest (he ▸ List.mem_cons_self d _)
        rw [pairClose]
        by_cases hc : c = '\n'
        · rw [if_pos hc]
        · rw [if_neg hc, if_neg (by simp [hd]), ih hrest]

/-- A two-character-marker pass leaves marker-free text unchanged. -/
theorem pairFuel_id (m : Char) (opn cls : List Char) :
    ∀ (n : Nat) (l : List Char), l.length ≤ n → m ∉ l →
      pairFuel m opn cls n l = l := by
  intro n
  induction n with
  | zero => intro l _ _; rfl
  | succ n ih =>
    intro l hlen hmem
    cases l with
    | nil => rfl
    | cons c rest =>
      cases rest with
      | nil => rfl
      | cons d rest2 =>
        have hc : c ≠ m := fun he => hmem (he ▸ List.mem_cons_self c _)
        have h2 : (d :: rest2).length ≤ n := by simpa using hlen
        rw [pairFuel, if_neg (by simp [hc]),
          ih (d :: rest2) h2 (fun hm => hmem (List.mem_cons_of_mem c hm))]

/-- No single-`*` closer exists in `*`-free text. -/
theorem emClose_none : ∀ (l : List Char), '*' ∉ l → emClose l = none := by
  intro l
  induction l with
  | nil => intro _; rfl
  | cons c rest ih =>
    intro hmem
    have hrest : '*' ∉ rest := fun hm => hmem (List.mem_cons_of_mem c hm)
    cases rest with
    | nil => rfl
    | cons d rest2 =>
      have hd : d ≠ '*' := fun he => hrest (he ▸ List.mem_cons_self d _)
      rw [emClose]
      by_cases hc : c = '\n'
      · rw [if_pos hc]
      · rw [if_neg hc, if_neg hd, ih hrest]

/-- The italic pass leaves `*`-free text unchanged. -/
theorem emFuel_id (opn cls : List Char) :
    ∀ (n : Nat) (l : List Char), l.length ≤ n → '*' ∉ l →
      emFuel opn cls n l = l := by
  intro n
  induction n with
  | zero => intro l _ _; rfl
  | succ n ih =>
    intro l hlen hmem
    cases l with
    | nil => rfl
    | cons c rest =>
      have hc : c ≠ '*' := fun he => hmem (he ▸ List.mem_cons_self c _)
      have h2 : rest.length ≤ n := by simpa using hlen
      rw [emFuel, if_neg hc, ih rest h2 (fun hm => hmem (List.mem_cons_of_mem c hm))]

/-- A heading pass of any positive level leaves `#`-free text
unchanged. -/
theorem headPass_id (k : Nat) (opn cls l : List Char) (hk : k ≠ 0) (h : '#' ∉ l) :
    headPass k opn cls l = l := by
  cases k with
  | zero => exact absurd rfl hk
  | succ j =>
    rw [headPass, List.replicate_succ]
    exact headFuel_id _ _ _ _ _ _ le_rfl h

/-- The heading passes leave `#`-free text unchanged. -/
theorem headsubbed_id (l : List Char) (h : '#' ∉ l) : headsubbed l = l := by
  rw [headsubbed, headPass_id 1 _ _ l one_ne_zero h, headPass_id 2 _ _ l two_ne_zero h,
    headPass_id 3 _ _ l three_ne_zero h]

/-- All six substitution passes leave text unchanged when it carries no
`#`, `*` or `_`. -/
theorem substituted_id (l : List Char)
    (h1 : '#' ∉ l) (h2 : '*' ∉ l) (h3 : '_' ∉ l) : substituted l = l := by
  rw [substituted, headsubbed_id l h1, boldPass,
    pairFuel_id _ _ _ _ _ le_rfl h2, emPass, emFuel_id _ _ _ _ le_rfl h2,
    uPass, pairFuel_id _ _ _ _ _ le_rfl h3]

/-- Newline-free text forms a single block of the paragraph split. -/
theorem splitBlank_single : ∀ (l : List Char), '\n' ∉ l → splitBlank l = [l] := by
  intro l
  induction l with
  | nil => intro _; rfl
  | cons c rest ih =>
    intro hmem
    have hc : c ≠ '\n' := fun he => hmem (he ▸ List.mem_cons_self c _)
    have hrest : '\n' ∉ rest := fun hm => hmem (List.mem_cons_of_mem c hm)
    cases rest with
    | nil => rfl
    | cons d rest2 =>
      rw [splitBlank, if_neg (by simp [hc]), ih hrest]

/-- Every character of a block of the paragraph split comes from the
split text. -/
theorem mem_splitBlank : ∀ (l : List Char) (bl : List Char), bl ∈ splitBlank l →
    ∀ c ∈ bl, c ∈ l
  | [], bl, hbl, c, hc => by
    simp only [splitBlank, List.mem_singleton] at hbl
    subst hbl
    simp at hc
  | [x], bl, hbl, c, hc => by
    simp only [splitBlank, List.mem_singleton] at hbl
    subst hbl
    simpa using hc
  | x :: d :: rest, bl, hbl, c, hc => by
    by_cases hnl : (decide (x = '\n') && decide (d = '\n')) = true
    · rw [splitBlank, if_pos hnl] at hbl
      rcases List.mem_cons.mp hbl with h | h
      · subst h; simp at hc
      · exact List.mem_cons_of_mem _
          (List.mem_cons_of_mem _ (mem_splitBlank rest bl h c hc))
    · rw [splitBlank, if_neg hnl] at hbl
      cases hs : splitBlank (d :: rest) with
      | nil =>
        rw [hs] at hbl
        simp only [List.mem_singleton] at hbl
        subst hbl
        simp only [List.mem_singleton] at hc
        exact hc ▸ List.mem_cons_self x _
      | cons g gs =>
        rw [hs] at hbl
        rcases List.mem_cons.mp hbl with h | h
        · subst h
          rcases List.mem_cons.mp hc with h' | h'
          · exact h' ▸ List.mem_cons_self x _
          · exact List.mem_cons_of_mem _
              (mem_splitBlank (d :: rest) g (hs ▸ List.mem_cons_self g gs) c h')
        · exact List.mem_cons_of_mem _
            (mem_splitBlank (d :: rest) bl (hs ▸ List.mem_cons_of_mem g h) c hc)

/-- A pair pass never fires when a lone double marker has no closer:
`m ∉ b` keeps `m :: b` intact. -/
theorem pairFuel_cons_marker (m : Char) (opn cls : List Char) :
    ∀ (n : Nat) (b : List Char), b.length + 1 ≤ n → m ∉ b →
      pairFuel m opn cls n (m :: b) = m :: b := by
  intro n
  induction n with
  | zero => intro b _ _; rfl
  | succ n ih =>
    intro b hlen hmem
    cases b with
    | nil => rfl
    | cons d rest =>
      have hd : d ≠ m := fun he => hmem (he ▸ List.mem_cons_self d _)
      have h2 : (d :: rest).length ≤ n := by simpa using hlen
      rw [pairFuel, if_neg (by simp [hd]), pairFuel_id m opn cls n (d :: rest) h2 hmem]

/-- A two-character-marker pass leaves text with a single unmatched
double marker (`a ++ m m ++ b`, no other `m`) unchanged. -/
theorem pairFuel_unmatched (m : Char) (opn cls : List Char) :
    ∀ (n : Nat) (a b : List Char), (a ++ m :: m :: b).length ≤ n → m ∉ a → m ∉ b →
      pairFuel m opn cls n (a ++ m :: m :: b) = a ++ m :: m :: b := by
  intro n
  induction n with
  | zero => intro a b _ _ _; rfl
  | succ n ih =>
    intro a b hlen ha hb
    cases a with
    | nil =>
      simp only [List.nil_append] at hlen ⊢
      rw [pairFuel, if_pos (by simp), pairClose_none m b hb]
      have h2 : b.length + 1 ≤ n := by simp at hlen; omega
      rw [pairFuel_cons_marker m opn cls n b h2 hb]
    | cons c a' =>
      have hc : c ≠ m := fun he => ha (he ▸ List.mem_cons_self c _)
      have ha' : m ∉ a' := fun hm => ha (List.mem_cons_of_mem c hm)
      obtain ⟨d, rest, hshape⟩ : ∃ d rest, a' ++ m :: m :: b = d :: rest := by
        cases a' with
        | nil => exact ⟨m, m :: b, rfl⟩
        | cons e a'' => exact ⟨e, a'' ++ m :: m :: b, rfl⟩
      have h2 : (a' ++ m :: m :: b).length ≤ n := by
        simp only [List.cons_append, List.length_cons] at hlen; omega
      rw [List.cons_append, hshape, pairFuel, if_neg (by simp [hc]), ← hshape,
        ih a' b h2 ha' hb]

/-- No closer for a start-of-text `*` opener exists in `*`-free text. -/
theorem emClose_cons_star (b : List Char) (hb : '*' ∉ b) : emClose ('*' :: b) = none := by
  cases b with
  | nil => rfl
  | cons d rest =>
    have hd : d ≠ '*' := fun he => hb (he ▸ List.mem_cons_self d _)
    have hrest : '*' ∉ d :: rest := hb
    rw [emClose, if_neg (by decide), if_neg hd, emClose_none _ hrest]

/-- The italic pass keeps `'*' :: b` intact when `b` is `*`-free. -/
theorem emFuel_cons_star (opn cls : List Char) :
    ∀ (n : Nat) (b : List Char), b.length + 1 ≤ n → '*' ∉ b →
      emFuel opn cls n ('*' :: b) = '*' :: b := by
  intro n
  induction n with
  | zero => intro b _ _; rfl
  | succ n ih =>
    intro b hlen hmem
    have h2 : b.length ≤ n := by omega
    rw [emFuel, if_pos rfl, emClose_none b hmem, emFuel_id opn cls n b h2 hmem]

/-- The italic pass leaves text with a single unmatched `**` (no other
`*`) unchanged: the double marker offers no valid single-`*` match. -/
theorem emFuel_unmatched (opn cls : List Char) :
    ∀ (n : Nat) (a b : List Char), (a ++ '*' :: '*' :: b).length ≤ n → '*' ∉ a → '*' ∉ b →
      emFuel opn cls n (a ++ '*' :: '*' :: b) = a ++ '*' :: '*' :: b := by
  intro n
  induction n with
  | zero => intro a b _ _ _; rfl
  | succ n ih =>
    intro a b hlen ha hb
    cases a with
    | nil =>
      simp only [List.nil_append] at hlen ⊢
      rw [emFuel, if_pos rfl, emClose_cons_star b hb]
      have h2 : b.length + 1 ≤ n := by simp at hlen; omega
      rw [emFuel_cons_star opn cls n b h2 hb]
    | cons c a' =>
      have hc : c ≠ '*' := fun he => ha (he ▸ List.mem_cons_self c _)
      have ha' : '*' ∉ a' := fun hm => ha (List.mem_cons_of_mem c hm)
      have h2 : (a' ++ '*' :: '*' :: b).length ≤ n := by
        simp only [List.cons_append, List.length_cons] at hlen; omega
      rw [List.cons_append, emFuel, if_neg hc, ih a' b h2 ha' hb]

/-- Unfold the character data of a packed string. -/
theorem data_mk (x : List Char) : (⟨x⟩ : String).data = x := rfl

/-- A character none of the conversion patterns can fire on: not a
heading/bold/italic/underline marker, not a newline, not the `<` that
`startswith('<h')` inspects. -/
def plainChar (c : Char) : Bool :=
  !(c = '#' || c = '*' || c = '_' || c = '\n' || c = '<')

/-- A non-plain character cannot occur in plain text. -/
theorem not_mem_of_plain (x : Char) (l : List Char)
    (h : ∀ c ∈ l, plainChar c = true) (hx : plainChar x = false) : x ∉ l :=
  fun hm => absurd (h x hm) (by simp [hx])

/-- Characters survive a left strip. -/
theorem mem_of_mem_lstripL (c : Char) (l : List Char) (h : c ∈ lstripL l) : c ∈ l :=
  (List.dropWhile_sublist isPySpace).subset h

/-- Characters survive a right strip. -/
theorem mem_of_mem_rstripL (c : Char) (l : List Char) (h : c ∈ rstripL l) : c ∈ l := by
  rw [rstripL, List.mem_reverse] at h
  exact List.mem_reverse.mp ((List.dropWhile_sublist isPySpace).subset h)

/-- Stripping text around an embedded non-whitespace pair reaches
exactly up to the pair from both sides. -/
theorem stripL_two_marker (m : Char) (a b : List Char) (hm : isPySpace m = false) :
    stripL (a ++ m :: m :: b) = lstripL a ++ m :: m :: rstripL b := by
  simp only [stripL, lstripL, rstripL]
  rw [dropWhile_append_stop _ _ _ _ hm]
  have h1 : (List.dropWhile isPySpace a ++ m :: m :: b).reverse =
      b.reverse ++ m :: m :: (List.dropWhile isPySpace a).reverse := by
    simp
  rw [h1, dropWhile_append_stop _ _ _ _ hm]
  simp

/-- All six substitution passes leave plain text around a single
unmatched `**` unchanged. -/
theorem substituted_unmatched (a b : List Char)
    (ha : ∀ c ∈ a, plainChar c = true) (hb : ∀ c ∈ b, plainChar c = true) :
    substituted (a ++ '*' :: '*' :: b) = a ++ '*' :: '*' :: b := by
  have hno : ∀ x : Char, plainChar x = false → x ≠ '*' → x ∉ a ++ '*' :: '*' :: b := by
    intro x hx hxs hm
    rcases List.mem_append.mp hm with h | h
    · exact absurd (ha x h) (by simp [hx])
    · rcases List.mem_cons.mp h with h' | h'
      · exact hxs h'
      · rcases List.mem_cons.mp h' with h'' | h''
        · exact hxs h''
        · exact absurd (hb x h'') (by simp [hx])
  have hhash : '#' ∉ a ++ '*' :: '*' :: b := hno '#' (by decide) (by decide)
  have hund : '_' ∉ a ++ '*' :: '*' :: b := hno '_' (by decide) (by decide)
  have hsa : '*' ∉ a := not_mem_of_plain '*' a ha (by decide)
  have hsb : '*' ∉ b := not_mem_of_plain '*' b hb (by decide)
  rw [substituted, headsubbed_id _ hhash, boldPass,
    pairFuel_unmatched '*' _ _ _ a b le_rfl hsa hsb, emPass,
    emFuel_unmatched _ _ _ a b le_rfl hsa hsb, uPass,
    pairFuel_id _ _ _ _ _ le_rfl hund]

/-- Claim C4: Markup-to-HTML is a total function of the input text (it
is defined by total scanners, so it returns a result on every string and
never raises), and an unmatched `**` marker in otherwise plain text is
left in the output as literal unconverted text: the output is the input,
stripped and wrapped in one paragraph, the `**` still inside. -/
theorem claim_C4 (a b : String)
    (ha : ∀ c ∈ a.data, plainChar c = true) (hb : ∀ c ∈ b.data, plainChar c = true) :
    markdownToHtml (a ++ "**" ++ b) = "<p>" ++ pyStrip (a ++ "**" ++ b) ++ "</p>" ∧
    ∃ u v : String, markdownToHtml (a ++ "**" ++ b) = u ++ "**" ++ v := by
  have hdata : (a ++ "**" ++ b).data = a.data ++ '*' :: '*' :: b.data := by
    simp [String.data_append]
  have hnl : '\n' ∉ a.data ++ '*' :: '*' :: b.data := by
    intro hm
    rcases List.mem_append.mp hm with h | h
    · exact absurd (ha _ h) (by decide)
    · rcases List.mem_cons.mp h with h' | h'
      · exact absurd h' (by decide)
      · rcases List.mem_cons.mp h' with h'' | h''
        · exact absurd h'' (by decide)
        · exact absurd (hb _ h'') (by decide)
  have hstrip : stripL (a.data ++ '*' :: '*' :: b.data) =
      lstripL a.data ++ '*' :: '*' :: rstripL b.data :=
    stripL_two_marker '*' _ _ (by decide)
  have hne : (lstripL a.data ++ '*' :: '*' :: rstripL b.data).isEmpty = false := by
    cases lstripL a.data <;> rfl
  have hlt : leadsWith "<h".data (lstripL a.data ++ '*' :: '*' :: rstripL b.data) = false := by
    cases hA : lstripL a.data with
    | nil => rfl
    | cons c a' =>
      have hc : ('<' : Char) ≠ c := by
        have hca : c ∈ a.data := mem_of_mem_lstripL c a.data (hA ▸ List.mem_cons_self c a')
        intro he
        exact absurd (ha c hca) (by simp [← he, plainChar])
      simp only [List.cons_append, leadsWith]
      simp [hc]
  have hwrap : wrapBlock (a.data ++ '*' :: '*' :: b.data) =
      some ("<p>".data ++ (lstripL a.data ++ '*' :: '*' :: rstripL b.data) ++ "</p>".data) := by
    rw [wrapBlock, hstrip, if_neg (by simp [hne]), if_neg (by simp [hlt])]
  have hmain : markdownToHtml (a ++ "**" ++ b) =
      ⟨"<p>".data ++ (lstripL a.data ++ '*' :: '*' :: rstripL b.data) ++ "</p>".data⟩ := by
    apply String.ext
    rw [markdownToHtml]
    simp only [data_mk]
    rw [hdata, markdownToHtmlL, substituted_unmatched a.data b.data ha hb, wrapParas,
      splitBlank_single _ hnl, List.filterMap_cons, hwrap]
    rfl
  constructor
  · rw [hmain]
    apply String.ext
    simp only [String.data_append, data_mk, pyStrip]
    simp only [List.append_assoc, List.cons_append, List.nil_append]
    rw [hstrip]
    simp
  · refine ⟨⟨"<p>".data ++ lstripL a.data⟩, ⟨rstripL b.data ++ "</p>".data⟩, ?_⟩
    rw [hmain]
    apply String.ext
    simp only [String.data_append, data_mk]
    simp [show ("**".data : List Char) = ['*', '*'] from rfl]

/-- Witness for C4: a concrete unmatched `**` stays literal in the
output. -/
theorem claim_C4_witness :
    markdownToHtml ("text " ++ "**" ++ "oops") =
        "<p>" ++ pyStrip ("text " ++ "**" ++ "oops") ++ "</p>" ∧
      ∃ u v : String, markdownToHtml ("text " ++ "**" ++ "oops") = u ++ "**" ++ v :=
  claim_C4 "text " "oops" (by decide) (by decide)

/-- Claim C10: the conversion never emits an empty paragraph element —
its output is a newline-join of blocks that are each non-empty and never
`<p></p>` (blocks whose stripped text is empty are dropped) — and an
input of only whitespace and blank lines converts to the empty
string. -/
theorem claim_C10 (s : String) :
    (∃ blocks : List (List Char), markdownToHtml s = ⟨joinNl blocks⟩ ∧
      ∀ bl ∈ blocks, bl ≠ [] ∧ bl ≠ "<p></p>".data) ∧
    ((∀ c ∈ s.data, isPySpace c = true) → markdownToHtml s = "") := by
  constructor
  · refine ⟨(splitBlank (substituted s.data)).filterMap wrapBlock, rfl, ?_⟩
    intro bl hbl
    rcases List.mem_filterMap.mp hbl with ⟨b, _hb, hwb⟩
    rw [wrapBlock] at hwb
    by_cases he : (stripL b).isEmpty
    · rw [if_pos he] at hwb
      exact absurd hwb (by simp)
    · rw [if_neg he] at hwb
      by_cases hh : leadsWith "<h".data (stripL b) = true
      · rw [if_pos hh] at hwb
        have hbl' : bl = stripL b := (Option.some_inj.mp hwb).symm
        subst hbl'
        refine ⟨fun hn => he (by rw [hn]; rfl), fun hp => ?_⟩
        rw [hp] at hh
        exact absurd hh (by decide)
      · rw [if_neg hh] at hwb
        have hbl' : bl = "<p>".data ++ stripL b ++ "</p>".data := (Option.some_inj.mp hwb).symm
        subst hbl'
        refine ⟨by simp, fun hp => ?_⟩
        have hlen := congrArg List.length hp
        rw [List.length_append, List.length_append,
          show (("<p>".data : List Char)).length = 3 from rfl,
          show (("</p>".data : List Char)).length = 4 from rfl,
          show (("<p></p>".data : List Char)).length = 7 from rfl] at hlen
        have hsb : (stripL b).length = 0 := by omega
        exact he (by rw [List.length_eq_zero.mp hsb]; rfl)
  · intro hws
    have hhash : '#' ∉ s.data := fun hm => absurd (hws '#' hm) (by decide)
    have hstar : '*' ∉ s.data := fun hm => absurd (hws '*' hm) (by decide)
    have hund : '_' ∉ s.data := fun hm => absurd (hws '_' hm) (by decide)
    have hfm : (splitBlank s.data).filterMap wrapBlock = [] := by
      rw [List.filterMap_eq_nil]
      intro bl hbl
      have hblws : ∀ c ∈ bl, isPySpace c = true :=
        fun c hc => hws c (mem_splitBlank s.data bl hbl c hc)
      rw [wrapBlock, stripL_eq_nil bl hblws]
      rfl
    apply String.ext
    rw [markdownToHtml]
    simp only [data_mk]
    rw [markdownToHtmlL, substituted_id s.data hhash hstar hund, wrapParas, hfm]
    rfl

/-- Witness for C10: a whitespace-and-blank-lines buffer converts to the
empty string. -/
theorem claim_C10_witness : markdownToHtml " \n\n\t" = "" :=
  (claim_C10 " \n\n\t").2 (by decide)

/-- Modelled from the spec's words (§4.2 rule 5): split the text on
blank-line boundaries, trim every block, keep the non-empty ones, emit
heading-initial blocks unwrapped and wrap every other block in exactly
one `<p>...</p>` pair, and rejoin the blocks with newlines. -/
def wrapParasSpec (l : List Char) : List Char :=
  joinNl ((((splitBlank l).map stripL).filter (fun p => !p.isEmpty)).map
    (fun p => if leadsWith "<h".data p then p else "<p>".data ++ p ++ "</p>".data))

/-- The code's `filterMap` paragraph step agrees with the spec's
trim-filter-wrap pipeline on every block list. -/
theorem filterMap_wrapBlock_eq (L : List (List Char)) :
    L.filterMap wrapBlock =
      ((L.map stripL).filter (fun p => !p.isEmpty)).map
        (fun p => if leadsWith "<h".data p then p else "<p>".data ++ p ++ "</p>".data) := by
  induction L with
  | nil => rfl
  | cons b L ih =>
    rw [List.filterMap_cons, List.map_cons, List.filter_cons]
    by_cases he : (stripL b).isEmpty
    · rw [wrapBlock, if_pos he]
      simp only [he, Bool.not_true, Bool.false_eq_true, if_false]
      exact ih
    · have he' : (stripL b).isEmpty = false := Bool.not_eq_true _ |>.mp he
      rw [wrapBlock, if_neg he]
      simp only [he', Bool.not_false, if_true, List.map_cons]
      by_cases hh : leadsWith "<h".data (stripL b) = true
      · rw [if_pos hh, if_pos hh, ih]
      · rw [if_neg hh, if_neg hh, ih]

/-!
## Library for the join/split round trip
-/

/-- The head surviving a `dropWhile` fails the predicate. -/
theorem dropWhile_head_false (p : Char → Bool) :
    ∀ (l : List Char) (c : Char) (rest : List Char),
      List.dropWhile p l = c :: rest → p c = false := by
  intro l
  induction l with
  | nil => intro c rest h; simp at h
  | cons d l ih =>
    intro c rest h
    cases hpd : p d with
    | true => rw [List.dropWhile_cons_of_pos hpd] at h; exact ih c rest h
    | false =>
      rw [List.dropWhile_cons_of_neg (by simp [hpd])] at h
      cases h
      exact hpd

/-- `dropWhile` skips a fully satisfying prefix. -/
theorem dropWhile_append_all (p : Char → Bool) (a b : List Char)
    (h : ∀ c ∈ a, p c = true) :
    List.dropWhile p (a ++ b) = List.dropWhile p b := by
  induction a with
  | nil => rfl
  | cons c a ih =>
    rw [List.cons_append, List.dropWhile_cons_of_pos (h c (List.mem_cons_self c a))]
    exact ih (fun x hx => h x (List.mem_cons_of_mem c hx))

/-- `dropWhile` that stops inside the left part ignores the right
part beyond appending it. -/
theorem dropWhile_append_left (p : Char → Bool) (a b : List Char)
    (h : List.dropWhile p a ≠ []) :
    List.dropWhile p (a ++ b) = List.dropWhile p a ++ b := by
  induction a with
  | nil => exact absurd rfl h
  | cons c a ih =>
    cases hpc : p c with
    | true =>
      have h' : List.dropWhile p a ≠ [] := by
        rwa [List.dropWhile_cons_of_pos hpc] at h
      rw [List.cons_append, List.dropWhile_cons_of_pos hpc, List.dropWhile_cons_of_pos hpc,
        ih h']
    | false =>
      rw [List.cons_append, List.dropWhile_cons_of_neg (by simp [hpc]),
        List.dropWhile_cons_of_neg (by simp [hpc])]
      rfl

/-- `takeWhile` that stops inside the left part never sees the right
part. -/
theorem takeWhile_append_left (p : Char → Bool) (a b : List Char)
    (h : List.dropWhile p a ≠ []) :
    List.takeWhile p (a ++ b) = List.takeWhile p a := by
  induction a with
  | nil => exact absurd rfl h
  | cons c a ih =>
    cases hpc : p c with
    | true =>
      rw [List.cons_append, List.takeWhile_cons_of_pos hpc, List.takeWhile_cons_of_pos hpc,
        ih (by rwa [List.dropWhile_cons_of_pos hpc] at h)]
    | false =>
      rw [List.cons_append, List.takeWhile_cons_of_neg (by simp [hpc]),
        List.takeWhile_cons_of_neg (by simp [hpc])]

/-- The reverse of a right strip is the `dropWhile` of the reverse. -/
theorem rstripL_reverse (l : List Char) :
    (rstripL l).reverse = List.dropWhile isPySpace l.reverse := by
  rw [rstripL, List.reverse_reverse]

/-- A right strip keeps a non-whitespace head in place. -/
theorem rstripL_cons (c : Char) (rest : List Char) (hc : isPySpace c = false) :
    rstripL (c :: rest) = c :: rstripL rest := by
  rw [rstripL, List.reverse_cons, dropWhile_append_stop _ _ _ _ hc]
  simp [rstripL]

/-- `dropWhile` is idempotent. -/
theorem dropWhile_idem (p : Char → Bool) (l : List Char) :
    List.dropWhile p (List.dropWhile p l) = List.dropWhile p l := by
  cases h : List.dropWhile p l with
  | nil => rfl
  | cons c rest =>
    rw [List.dropWhile_cons_of_neg (by simp [dropWhile_head_false p l c rest h])]

/-- The right strip is idempotent. -/
theorem rstripL_idem (l : List Char) : rstripL (rstripL l) = rstripL l := by
  rw [rstripL, rstripL_reverse, dropWhile_idem, ← rstripL_reverse, List.reverse_reverse]

/-- A left strip after a right strip of left-stripped text changes
nothing. -/
theorem lstripL_rstripL (l : List Char) :
    lstripL (rstripL (lstripL l)) = rstripL (lstripL l) := by
  cases h : lstripL l with
  | nil => rfl
  | cons c rest =>
    have hc : isPySpace c = false := dropWhile_head_false isPySpace l c rest h
    rw [rstripL_cons c rest hc, lstripL, List.dropWhile_cons_of_neg (by simp [hc])]

/-- Python `strip` is idempotent. -/
theorem stripL_idem (l : List Char) : stripL (stripL l) = stripL l := by
  rw [stripL, stripL, lstripL_rstripL, rstripL_idem]

/-- Stripping ignores appended whitespace. -/
theorem rstripL_append_ws (y w : List Char) (hw : ∀ c ∈ w, isPySpace c = true) :
    rstripL (y ++ w) = rstripL y := by
  rw [rstripL, List.reverse_append,
    dropWhile_append_all _ _ _ (fun c hc => hw c (List.mem_reverse.mp hc)), ← rstripL]

/-- Stripping ignores appended trailing whitespace. -/
theorem stripL_append_ws (x w : List Char) (hw : ∀ c ∈ w, isPySpace c = true) :
    stripL (x ++ w) = stripL x := by
  by_cases hx : lstripL x = []
  · have hxw : ∀ c ∈ x, isPySpace c = true := List.dropWhile_eq_nil_iff.mp hx
    rw [stripL_eq_nil x hxw, stripL_eq_nil]
    intro c hc
    rcases List.mem_append.mp hc with h | h
    · exact hxw c h
    · exact hw c h
  · rw [stripL, lstripL, dropWhile_append_left _ _ _ hx, ← lstripL,
      rstripL_append_ws _ _ hw, stripL]

/-- Stripping ignores a leading whitespace character. -/
theorem stripL_cons_ws (c : Char) (x : List Char) (hc : isPySpace c = true) :
    stripL (c :: x) = stripL x := by
  rw [stripL, lstripL, List.dropWhile_cons_of_pos hc, ← lstripL, ← stripL]

/-- Any list splits into its right strip and its all-whitespace
tail. -/
theorem rstripL_decomp (l : List Char) :
    l = rstripL l ++ (List.takeWhile isPySpace l.reverse).reverse := by
  conv_lhs => rw [← List.reverse_reverse l, ← List.takeWhile_append_dropWhile
    (p := isPySpace) (l := l.reverse)]
  rw [List.reverse_append, ← rstripL_reverse, List.reverse_reverse]

/-- The reverse of a non-empty strip starts with a non-whitespace
character. -/
theorem stripL_reverse_head (y : List Char) (h : stripL y ≠ []) :
    ∃ c rest, (stripL y).reverse = c :: rest ∧ isPySpace c = false := by
  have hrev : (stripL y).reverse = List.dropWhile isPySpace (lstripL y).reverse := by
    rw [stripL, rstripL_reverse]
  cases hc : (stripL y).reverse with
  | nil => exact absurd (by simpa using hc) h
  | cons c rest =>
    refine ⟨c, rest, rfl, ?_⟩
    rw [hrev] at hc
    exact dropWhile_head_false _ _ _ _ hc

/-- Line splitting never yields an empty list. -/
theorem splitNl_ne_nil : ∀ (l : List Char), splitNl l ≠ [] := by
  intro l
  induction l with
  | nil => simp [splitNl]
  | cons c rest ih =>
    rw [splitNl]
    by_cases hc : c = '\n'
    · simp [hc]
    · rw [if_neg hc]
      cases splitNl rest <;> simp

/-- Line splitting distributes over a newline. -/
theorem splitNl_append_nl : ∀ (a b : List Char),
    splitNl (a ++ '\n' :: b) = splitNl a ++ splitNl b := by
  intro a
  induction a with
  | nil => intro b; rfl
  | cons c a ih =>
    intro b
    by_cases hc : c = '\n'
    · subst hc
      rw [List.cons_append, splitNl, if_pos rfl, ih, splitNl, if_pos rfl]
      rfl
    · rw [List.cons_append, splitNl, if_neg hc, ih b, splitNl, if_neg hc]
      cases hs : splitNl a with
      | nil => exact absurd hs (splitNl_ne_nil a)
      | cons g gs => rfl

/-- Newline-free text is a single line. -/
theorem splitNl_no_nl : ∀ (l : List Char), '\n' ∉ l → splitNl l = [l] := by
  intro l
  induction l with
  | nil => intro _; rfl
  | cons c rest ih =>
    intro hmem
    have hc : c ≠ '\n' := fun he => hmem (he ▸ List.mem_cons_self c _)
    rw [splitNl, if_neg hc, ih (fun hm => hmem (List.mem_cons_of_mem c hm))]

/-- Push a head character into the first line of a join. -/
theorem joinNl_cons_cons (c : Char) (g : List Char) (gs : List (List Char)) :
    joinNl ((c :: g) :: gs) = c :: joinNl (g :: gs) := by
  cases gs <;> rfl

/-- Joining the lines of a split rebuilds the text. -/
theorem joinNl_splitNl : ∀ (l : List Char), joinNl (splitNl l) = l := by
  intro l
  induction l with
  | nil => rfl
  | cons c rest ih =>
    by_cases hc : c = '\n'
    · subst hc
      rw [splitNl, if_pos rfl]
      cases hs : splitNl rest with
      | nil => exact absurd hs (splitNl_ne_nil rest)
      | cons g gs =>
        show joinNl ([] :: g :: gs) = '\n' :: rest
        rw [joinNl]
        simp only [List.nil_append]
        rw [← hs, ih]
    · rw [splitNl, if_neg hc]
      cases hs : splitNl rest with
      | nil => exact absurd hs (splitNl_ne_nil rest)
      | cons g gs => rw [joinNl_cons_cons, ← hs, ih]

/-- Joining concatenated non-empty line lists splices a newline. -/
theorem joinNl_append : ∀ (A B : List (List Char)), A ≠ [] → B ≠ [] →
    joinNl (A ++ B) = joinNl A ++ '\n' :: joinNl B := by
  intro A
  induction A with
  | nil => intro B h _; exact absurd rfl h
  | cons a A ih =>
    intro B _ hB
    cases A with
    | nil =>
      cases B with
      | nil => exact absurd rfl hB
      | cons b B => rfl
    | cons a' A' =>
      have ih' := ih B (by simp) hB
      rw [List.cons_append] at ih'
      simp only [List.cons_append]
      rw [show joinNl (a :: a' :: (A' ++ B)) = a ++ '\n' :: joinNl (a' :: (A' ++ B)) from rfl,
        ih', show joinNl (a :: a' :: A') = a ++ '\n' :: joinNl (a' :: A') from rfl]
      simp [List.append_assoc]

/-- A run of newlines splits into that many empty lines plus one. -/
theorem splitNl_all_nl : ∀ (w : List Char), (∀ c ∈ w, c = '\n') →
    splitNl w = List.replicate (w.length + 1) [] := by
  intro w
  induction w with
  | nil => intro _; rfl
  | cons c w ih =>
    intro h
    rw [splitNl, if_pos (h c (List.mem_cons_self c w)),
      ih (fun x hx => h x (List.mem_cons_of_mem c hx))]
    rfl

/-- Appending a run of newlines appends that many empty lines. -/
theorem splitNl_append_nls (x w : List Char) (hw : ∀ c ∈ w, c = '\n') :
    splitNl (x ++ w) = splitNl x ++ List.replicate w.length [] := by
  cases w with
  | nil => simp
  | cons c w =>
    have hc : c = '\n' := hw c (List.mem_cons_self c w)
    subst hc
    rw [splitNl_append_nl, splitNl_all_nl w (fun x hx => hw x (List.mem_cons_of_mem _ hx))]
    rfl

/-- Joining one or more empty lines gives a run of newlines. -/
theorem joinNl_replicate_nil : ∀ (k : Nat),
    joinNl (List.replicate (k + 1) []) = List.replicate k '\n' := by
  intro k
  induction k with
  | zero => rfl
  | succ k ih =>
    rw [List.replicate_succ, List.replicate_succ,
      show joinNl ([] :: [] :: List.replicate k ([] : List Char)) =
        [] ++ '\n' :: joinNl ([] :: List.replicate k ([] : List Char)) from rfl,
      ← List.replicate_succ, ih]
    rfl

/-- Delimiter grouping passes over a delimiter-free prefix. -/
theorem splitDelims_no_delim_append (A L : List (List Char))
    (h : ∀ l ∈ A, isDelimL l = false) :
    splitDelims (A ++ L) = (A ++ (splitDelims L).1, (splitDelims L).2) := by
  induction A with
  | nil => rfl
  | cons a A ih =>
    rw [List.cons_append, splitDelims,
      if_neg (by simp [h a (List.mem_cons_self a A)]),
      ih (fun l hl => h l (List.mem_cons_of_mem a hl))]
    rfl

/-- A delimiter-free line list yields no pairs. -/
theorem splitDelims_no_delim (A : List (List Char)) (h : ∀ l ∈ A, isDelimL l = false) :
    splitDelims A = (A, []) := by
  have := splitDelims_no_delim_append A [] h
  simpa [splitDelims] using this

/-- Extend the last group of a delimiter list. -/
def extendLast : List (List Char × List (List Char)) → List (List Char) →
    List (List Char × List (List Char))
  | [], _ => []
  | (t, g) :: rest, E =>
    match rest with
    | [] => [(t, g ++ E)]
    | _ :: _ => (t, g) :: extendLast rest E

/-- Extending the last group preserves non-emptiness. -/
theorem extendLast_ne_nil (t : List Char) (g : List (List Char))
    (rest : List (List Char × List (List Char))) (E : List (List Char)) :
    extendLast ((t, g) :: rest) E ≠ [] := by
  cases rest <;> simp [extendLast]

/-- Appending delimiter-free lines to a buffer extends its last group
(or its preamble when it has no delimiter at all). -/
theorem splitDelims_append (X E : List (List Char)) (hE : ∀ l ∈ E, isDelimL l = false) :
    splitDelims (X ++ E) =
      (if (splitDelims X).2.isEmpty then (splitDelims X).1 ++ E else (splitDelims X).1,
        extendLast (splitDelims X).2 E) := by
  induction X with
  | nil => simpa [splitDelims, extendLast] using splitDelims_no_delim E hE
  | cons x X ih =>
    rcases hsd : splitDelims X with ⟨g, ds⟩
    rw [hsd] at ih
    by_cases hx : isDelimL x = true
    · cases ds with
      | nil =>
        simp only [List.isEmpty_nil, if_true, extendLast] at ih
        rw [List.cons_append, splitDelims, if_pos hx, ih, splitDelims, if_pos hx, hsd]
        simp [extendLast]
      | cons d ds' =>
        simp only [List.isEmpty_cons, Bool.false_eq_true, if_false] at ih
        rw [List.cons_append, splitDelims, if_pos hx, ih, splitDelims, if_pos hx, hsd]
        simp [extendLast]
    · cases ds with
      | nil =>
        simp only [List.isEmpty_nil, if_true, extendLast] at ih
        rw [List.cons_append, splitDelims, if_neg (by simpa using hx), ih, splitDelims, hsd]
        simp [hx, extendLast]
      | cons d ds' =>
        obtain ⟨dt, dg⟩ := d
        simp only [List.isEmpty_cons, Bool.false_eq_true, if_false] at ih
        rw [List.cons_append, splitDelims, if_neg (by simpa using hx), ih, splitDelims, hsd]
        simp [hx, extendLast]

/-- Extending the last group by empty lines does not change any stripped
body. -/
theorem glue_extendLast_strip (k : Nat) :
    ∀ (ds : List (List Char × List (List Char))),
      (glueBodies (extendLast ds (List.replicate k []))).map
          (fun pr => (pr.1, stripL pr.2)) =
        (glueBodies ds).map (fun pr => (pr.1, stripL pr.2)) := by
  intro ds
  induction ds with
  | nil => rfl
  | cons p rest ih =>
    obtain ⟨t, g⟩ := p
    cases rest with
    | nil =>
      cases k with
      | zero => simp [extendLast]
      | succ k =>
        show (glueBodies [(t, g ++ List.replicate (k + 1) [])]).map _ =
          (glueBodies [(t, g)]).map _
        rw [show glueBodies [(t, g ++ List.replicate (k + 1) ([] : List Char))] =
            [(t, joinNl ([] :: (g ++ List.replicate (k + 1) [])))] from rfl,
          show glueBodies [(t, g)] = [(t, joinNl ([] :: g))] from rfl]
        simp only [List.map_cons, List.map_nil]
        have hbody : joinNl ([] :: (g ++ List.replicate (k + 1) [])) =
            joinNl ([] :: g) ++ '\n' :: List.replicate k '\n' := by
          rw [show ([] : List Char) :: (g ++ List.replicate (k + 1) []) =
              ([] :: g) ++ List.replicate (k + 1) [] from rfl,
            joinNl_append ([] :: g) _ (by simp) (by simp), joinNl_replicate_nil]
        have hstr : stripL (joinNl ([] :: g) ++ '\n' :: List.replicate k '\n') =
            stripL (joinNl ([] :: g)) := by
          rw [stripL_append_ws]
          intro c hc
          rcases List.mem_cons.mp hc with h | h
          · rw [h]; rfl
          · rw [List.eq_of_mem_replicate h]; rfl
        rw [hbody, hstr]
    | cons q rest' =>
      obtain ⟨qt, qg⟩ := q
      show (glueBodies ((t, g) :: extendLast ((qt, qg) :: rest') (List.replicate k []))).map _ =
        (glueBodies ((t, g) :: (qt, qg) :: rest')).map _
      cases he : extendLast ((qt, qg) :: rest') (List.replicate k []) with
      | nil => exact absurd he (extendLast_ne_nil qt qg rest' _)
      | cons e es =>
        rw [show glueBodies ((t, g) :: e :: es) =
            (t, joinNl ([] :: (g ++ [[]]))) :: glueBodies (e :: es) from rfl,
          show glueBodies ((t, g) :: (qt, qg) :: rest') =
            (t, joinNl ([] :: (g ++ [[]]))) :: glueBodies ((qt, qg) :: rest') from rfl]
        simp only [List.map_cons]
        exact congrArg _ (by rw [← he]; exact ih)

/-- Right-stripping a buffer changes no captured title and no stripped
body of its delimiter split, provided the stripped-off suffix is made of
newlines. -/
theorem pairs_rstrip (l : List Char)
    (hl : ∀ c ∈ List.takeWhile isPySpace l.reverse, c = '\n') :
    (glueBodies (splitDelims (splitNl (rstripL l))).2).map (fun pr => (pr.1, stripL pr.2)) =
      (glueBodies (splitDelims (splitNl l)).2).map (fun pr => (pr.1, stripL pr.2)) := by
  have hWnl : ∀ c ∈ (List.takeWhile isPySpace l.reverse).reverse, c = '\n' :=
    fun c hc => hl c (List.mem_reverse.mp hc)
  have hE : ∀ li ∈ List.replicate (List.takeWhile isPySpace l.reverse).reverse.length
      ([] : List Char), isDelimL li = false := by
    intro li hli
    rw [List.eq_of_mem_replicate hli]
    rfl
  conv_rhs => rw [rstripL_decomp l]
  rw [splitNl_append_nls _ _ hWnl, splitDelims_append _ _ hE]
  exact (glue_extendLast_strip _ _).symm

/-- The markup of a chapter is already stripped. -/
theorem htmlToMarkdownL_stripped (es : List Elem) :
    stripL (htmlToMarkdownL es) = htmlToMarkdownL es := by
  rw [htmlToMarkdownL, stripL_idem]

/-- A non-empty stripped list ends (its reverse begins) with a
non-whitespace character. -/
theorem stripped_reverse_head (M : List Char) (hMs : stripL M = M) (h : M ≠ []) :
    ∃ c r, M.reverse = c :: r ∧ isPySpace c = false := by
  obtain ⟨c, r, hcr, hcw⟩ := stripL_reverse_head M (by rw [hMs]; exact h)
  rw [hMs] at hcr
  exact ⟨c, r, hcr, hcw⟩

/-- The trailing whitespace of the raw full-book join is a run of
newlines, and the join holds non-whitespace content. -/
theorem joinRaw_trailing : ∀ (chs : List Chapter), chs ≠ [] →
    (∀ c ∈ List.takeWhile isPySpace (joinRaw chs).reverse, c = '\n') ∧
      List.dropWhile isPySpace (joinRaw chs).reverse ≠ [] := by
  intro chs
  induction chs with
  | nil => intro h; exact absurd rfl h
  | cons ch rest ih =>
    intro _
    have hsplit : joinRaw (ch :: rest) =
        ("=== ".data ++ ch.title.data ++ " ===".data ++
          '\n' :: '\n' :: (htmlToMarkdownL ch.doc ++ ['\n', '\n'])) ++ joinRaw rest := rfl
    by_cases hr : rest = []
    · subst hr
      have hrev : (joinRaw [ch]).reverse =
          '\n' :: '\n' :: ((htmlToMarkdownL ch.doc).reverse ++
            ('\n' :: '\n' :: ('=' :: '=' :: '=' :: ' ' ::
              (ch.title.data.reverse ++ [' ', '=', '=', '='])))) := by
        have e1 : ("=== ".data : List Char) = ['=', '=', '=', ' '] := rfl
        have e2 : (" ===".data : List Char) = [' ', '=', '=', '='] := rfl
        rw [joinRaw, List.map_cons, List.map_nil, catL, catL, List.append_nil, e1, e2]
        simp [List.reverse_append, List.append_assoc]
      rw [hrev]
      by_cases hM : htmlToMarkdownL ch.doc = []
      · rw [hM]
        simp only [List.reverse_nil, List.nil_append]
        constructor
        · intro c hc
          rw [List.takeWhile_cons_of_pos rfl, List.takeWhile_cons_of_pos rfl,
            List.takeWhile_cons_of_pos rfl, List.takeWhile_cons_of_pos rfl,
            List.takeWhile_cons_of_neg (by decide)] at hc
          simp at hc
          exact hc
        · rw [List.dropWhile_cons_of_pos rfl, List.dropWhile_cons_of_pos rfl,
            List.dropWhile_cons_of_pos rfl, List.dropWhile_cons_of_pos rfl,
            List.dropWhile_cons_of_neg (by decide)]
          simp
      · obtain ⟨c0, r0, hcr, hcw⟩ :=
          stripped_reverse_head _ (htmlToMarkdownL_stripped ch.doc) hM
        rw [hcr, List.cons_append]
        constructor
        · intro c hc
          rw [List.takeWhile_cons_of_pos rfl, List.takeWhile_cons_of_pos rfl,
            List.takeWhile_cons_of_neg (by simp [hcw])] at hc
          simp at hc
          exact hc
        · rw [List.dropWhile_cons_of_pos rfl, List.dropWhile_cons_of_pos rfl,
            List.dropWhile_cons_of_neg (by simp [hcw])]
          simp
    · obtain ⟨htk, hdr⟩ := ih hr
      constructor
      · intro c hc
        rw [hsplit, List.reverse_append, takeWhile_append_left _ _ _ hdr] at hc
        exact htk c hc
      · rw [hsplit, List.reverse_append, dropWhile_append_left _ _ _ hdr]
        intro hnil
        exact hdr (List.append_eq_nil.mp hnil).1

/-- A list begins with itself before any continuation. -/
theorem leadsWith_append_self : ∀ (a x : List Char), leadsWith a (a ++ x) = true := by
  intro a
  induction a with
  | nil => intro x; rfl
  | cons c a ih => intro x; simp [leadsWith, ih]

/-- The join's `=== title ===` line matches the delimiter pattern for a
non-empty title. -/
theorem isDelim_dl (t : List Char) (h : t ≠ []) :
    isDelimL (("=== ".data ++ t) ++ " ===".data) = true := by
  rw [isDelimL]
  have h1 : leadsWith "=== ".data (("=== ".data ++ t) ++ " ===".data) = true := by
    rw [List.append_assoc]
    exact leadsWith_append_self _ _
  have h2 : trailsWith " ===".data (("=== ".data ++ t) ++ " ===".data) = true := by
    rw [trailsWith, List.reverse_append]
    exact leadsWith_append_self _ _
  have h3 : 9 ≤ (("=== ".data ++ t) ++ " ===".data).length := by
    rw [List.length_append, List.length_append,
      show ("=== ".data : List Char).length = 4 from rfl,
      show (" ===".data : List Char).length = 4 from rfl]
    have := List.length_pos.mpr h
    omega
  rw [h1, h2]
  simpa using h3

/-- The captured group of the join's delimiter line is the title. -/
theorem delimTitle_dl (t : List Char) :
    delimTitleL (("=== ".data ++ t) ++ " ===".data) = t := by
  rw [delimTitleL, List.append_assoc,
    show (4 : Nat) = ("=== ".data : List Char).length from rfl, List.drop_left,
    List.length_append, List.length_append,
    show ("=== ".data : List Char).length = 4 from rfl,
    show (" ===".data : List Char).length = 4 from rfl]
  rw [show 4 + (t.length + 4) - 8 = t.length from by omega]
  exact List.take_left ..

/-- The join's delimiter line holds no newline when the title holds
none. -/
theorem dl_no_nl (t : List Char) (h : '\n' ∉ t) :
    '\n' ∉ ("=== ".data ++ t) ++ " ===".data := by
  intro hm
  rcases List.mem_append.mp hm with h1 | h1
  · rcases List.mem_append.mp h1 with h2 | h2
    · exact absurd h2 (by decide)
    · exact h h2
  · exact absurd h1 (by decide)

/-- Stripping the glued body slot of a chapter recovers exactly its
markup. -/
theorem body_strip (M : List Char) (hM : stripL M = M) :
    stripL (joinNl ([] :: [] :: (splitNl M ++ [[], []]))) = M := by
  have hX : splitNl M ++ [[], []] ≠ [] := by simp
  have h1 : joinNl ([] :: [] :: (splitNl M ++ [[], []])) =
      '\n' :: joinNl ([] :: (splitNl M ++ [[], []])) := rfl
  have h2 : joinNl (([] : List Char) :: (splitNl M ++ [[], []])) =
      '\n' :: joinNl (splitNl M ++ [[], []]) := by
    cases hc : splitNl M ++ [[], []] with
    | nil => exact absurd hc hX
    | cons x xs => rfl
  have h3 : joinNl (splitNl M ++ [[], []]) = M ++ ['\n', '\n'] := by
    rw [joinNl_append _ _ (splitNl_ne_nil M) (by simp), joinNl_splitNl]
    rfl
  have hws : ∀ c ∈ (['\n', '\n'] : List Char), isPySpace c = true := by decide
  rw [h1, h2, h3, stripL_cons_ws '\n' _ rfl, stripL_cons_ws '\n' _ rfl,
    stripL_append_ws _ _ hws, hM]

/-- The full computation of the delimiter grouping of the raw join: the
preamble is empty and each chapter contributes its title and, after
stripping, exactly its markup. -/
theorem joinRaw_split : ∀ (chs : List Chapter),
    (∀ ch ∈ chs, ch.title.data ≠ [] ∧ '\n' ∉ ch.title.data) →
    (∀ ch ∈ chs, ∀ line ∈ splitNl (htmlToMarkdownL ch.doc), isDelimL line = false) →
    (chs ≠ [] → (splitDelims (splitNl (joinRaw chs))).1 = []) ∧
    (glueBodies (splitDelims (splitNl (joinRaw chs))).2).map (fun pr => (pr.1, stripL pr.2)) =
      chs.map (fun ch => (ch.title.data, htmlToMarkdownL ch.doc)) := by
  intro chs
  induction chs with
  | nil => intro _ _; exact ⟨fun h => absurd rfl h, rfl⟩
  | cons ch rest ih =>
    intro ht hm
    obtain ⟨iht1, iht2⟩ := ht ch (List.mem_cons_self ch rest)
    obtain ⟨ih1, ih2⟩ := ih (fun c hc => ht c (List.mem_cons_of_mem ch hc))
      (fun c hc => hm c (List.mem_cons_of_mem ch hc))
    have hshape : joinRaw (ch :: rest) =
        (("=== ".data ++ ch.title.data) ++ " ===".data) ++
          '\n' :: ('\n' :: (htmlToMarkdownL ch.doc ++ '\n' :: ('\n' :: joinRaw rest))) := by
      show (("=== ".data ++ ch.title.data ++ " ===".data) ++
          '\n' :: '\n' :: (htmlToMarkdownL ch.doc ++ ['\n', '\n'])) ++ joinRaw rest = _
      simp [List.append_assoc]
    have hlines : splitNl (joinRaw (ch :: rest)) =
        (("=== ".data ++ ch.title.data) ++ " ===".data) ::
          [] :: (splitNl (htmlToMarkdownL ch.doc) ++ [] :: splitNl (joinRaw rest)) := by
      rw [hshape, splitNl_append_nl, splitNl_no_nl _ (dl_no_nl _ iht2),
        show splitNl ('\n' :: (htmlToMarkdownL ch.doc ++ '\n' :: ('\n' :: joinRaw rest))) =
          [] :: splitNl (htmlToMarkdownL ch.doc ++ '\n' :: ('\n' :: joinRaw rest)) from by
            rw [splitNl, if_pos rfl],
        splitNl_append_nl,
        show splitNl ('\n' :: joinRaw rest) = [] :: splitNl (joinRaw rest) from by
          rw [splitNl, if_pos rfl]]
      rfl
    have hsd : splitDelims (splitNl (joinRaw (ch :: rest))) =
        ([], (ch.title.data,
          [] :: (splitNl (htmlToMarkdownL ch.doc) ++
            [] :: (splitDelims (splitNl (joinRaw rest))).1)) ::
          (splitDelims (splitNl (joinRaw rest))).2) := by
      rw [hlines, splitDelims, if_pos (isDelim_dl _ iht1), delimTitle_dl,
        splitDelims, if_neg (by decide),
        splitDelims_no_delim_append _ _ (hm ch (List.mem_cons_self ch rest)),
        splitDelims, if_neg (by decide)]
    refine ⟨fun _ => by rw [hsd], ?_⟩
    rw [hsd]
    by_cases hrest : rest = []
    · subst hrest
      have hgr : (splitDelims (splitNl (joinRaw ([] : List Chapter)))).1 = [[]] := by decide
      have hdr : (splitDelims (splitNl (joinRaw ([] : List Chapter)))).2 = [] := by decide
      rw [hgr, hdr]
      rw [show glueBodies [(ch.title.data,
          [] :: (splitNl (htmlToMarkdownL ch.doc) ++ [] :: [[]]))] =
        [(ch.title.data, joinNl ([] ::
          ([] :: (splitNl (htmlToMarkdownL ch.doc) ++ [] :: [[]]))))] from rfl]
      simp only [List.map_cons, List.map_nil]
      rw [show ([] : List Char) :: ([] :: (splitNl (htmlToMarkdownL ch.doc) ++ [] :: [[]])) =
          [] :: [] :: (splitNl (htmlToMarkdownL ch.doc) ++ [[], []]) from rfl,
        body_strip _ (htmlToMarkdownL_stripped ch.doc)]
    · have hg : (splitDelims (splitNl (joinRaw rest))).1 = [] := ih1 hrest
      have hds : (splitDelims (splitNl (joinRaw rest))).2 ≠ [] := by
        intro hnil
        rw [hnil] at ih2
        exact hrest (List.map_eq_nil.mp ih2.symm)
      rw [hg]
      cases hds2 : (splitDelims (splitNl (joinRaw rest))).2 with
      | nil => exact absurd hds2 hds
      | cons d ds =>
        rw [show glueBodies ((ch.title.data,
            [] :: (splitNl (htmlToMarkdownL ch.doc) ++ [] :: [])) :: d :: ds) =
          (ch.title.data, joinNl ([] ::
            (([] :: (splitNl (htmlToMarkdownL ch.doc) ++ [] :: [])) ++ [[]]))) ::
            glueBodies (d :: ds) from rfl]
        simp only [List.map_cons]
        rw [show ([] : List Char) ::
            (([] :: (splitNl (htmlToMarkdownL ch.doc) ++ [] :: [])) ++ [[]]) =
          [] :: [] :: (splitNl (htmlToMarkdownL ch.doc) ++ [[], []]) from by simp,
          body_strip _ (htmlToMarkdownL_stripped ch.doc)]
        rw [hds2] at ih2
        rw [ih2]

/-- Claim C2 counterexample: the chapter count and the delimiter count
match (both 2), yet the first split body strips to the empty string, not
to chapter 0's markup `=== F ===` — a paragraph shaped like a delimiter
steals the count that an empty-titled chapter loses. -/
theorem claim_C2_counterexample :
    (delimPairs (loadFullBook
        [⟨"T", [Elem.p "=== F ==="], ""⟩, ⟨"", [Elem.p "m2"], ""⟩])).length = 2 ∧
    ((delimPairs (loadFullBook
        [⟨"T", [Elem.p "=== F ==="], ""⟩, ⟨"", [Elem.p "m2"], ""⟩])).get? 0).map
        (fun pr => (⟨stripL pr.2⟩ : String)) ≠
      some (htmlToMarkdown [Elem.p "=== F ==="]) := by
  constructor <;> decide

/-- Claim C2 (amended): the join-then-split identity holds whenever
every chapter title makes a well-formed delimiter (non-empty, no
newline) and no line of any chapter's markup itself matches the
delimiter pattern; then the split finds exactly one delimiter per
chapter, the captured titles are the chapter titles in order, and each
body strips back to exactly that chapter's rendered markup. -/
theorem claim_C2 (chs : List Chapter)
    (ht : ∀ ch ∈ chs, ch.title ≠ "" ∧ '\n' ∉ ch.title.data)
    (hm : ∀ ch ∈ chs, ∀ line ∈ splitNl (htmlToMarkdownL ch.doc), isDelimL line = false) :
    (delimPairs (loadFullBook chs)).map
        (fun pr => ((⟨pr.1⟩ : String), (⟨stripL pr.2⟩ : String))) =
      chs.map (fun ch => (ch.title, htmlToMarkdown ch.doc)) := by
  have ht' : ∀ ch ∈ chs, ch.title.data ≠ [] ∧ '\n' ∉ ch.title.data := by
    intro ch hch
    refine ⟨fun hd => (ht ch hch).1 ?_, (ht ch hch).2⟩
    apply String.ext
    rw [hd]
  have hpair : (glueBodies (splitDelims (splitNl (stripL (joinRaw chs)))).2).map
      (fun pr => (pr.1, stripL pr.2)) =
      chs.map (fun ch => (ch.title.data, htmlToMarkdownL ch.doc)) := by
    by_cases hnil : chs = []
    · subst hnil; rfl
    · have hlst : lstripL (joinRaw chs) = joinRaw chs := by
        cases chs with
        | nil => exact absurd rfl hnil
        | cons ch rest =>
          obtain ⟨X, hX⟩ : ∃ X, joinRaw (ch :: rest) = '=' :: X :=
            ⟨'=' :: '=' :: ' ' :: (ch.title.data ++ " ===".data ++
              '\n' :: '\n' :: (htmlToMarkdownL ch.doc ++ ['\n', '\n']) ++ joinRaw rest), by
              show (("=== ".data ++ ch.title.data ++ " ===".data) ++
                  '\n' :: '\n' :: (htmlToMarkdownL ch.doc ++ ['\n', '\n'])) ++ joinRaw rest = _
              simp [List.append_assoc]⟩
          rw [hX, lstripL, List.dropWhile_cons_of_neg (by decide)]
      have hstrip : stripL (joinRaw chs) = rstripL (joinRaw chs) := by
        rw [stripL, hlst]
      rw [hstrip]
      obtain ⟨htw, _⟩ := joinRaw_trailing chs hnil
      rw [pairs_rstrip _ htw]
      exact (joinRaw_split chs ht' hm).2
  rw [delimPairs, loadFullBook, data_mk, delimPairsL, stripL_idem]
  have hcomp : (fun pr : List Char × List Char =>
      ((⟨pr.1⟩ : String), (⟨stripL pr.2⟩ : String))) =
      (fun q : List Char × List Char => ((⟨q.1⟩ : String), (⟨q.2⟩ : String))) ∘
        (fun pr => (pr.1, stripL pr.2)) := rfl
  rw [hcomp, ← List.map_map, hpair, List.map_map]
  rfl

/-- Witness for C2: two well-titled chapters round-trip through join and
split, the bodies stripping back to their markup. -/
theorem claim_C2_witness :
    (delimPairs (loadFullBook
        [⟨"A", [Elem.p "hello"], ""⟩, ⟨"B", [Elem.h 1 "x"], ""⟩])).map
        (fun pr => ((⟨pr.1⟩ : String), (⟨stripL pr.2⟩ : String))) =
      [("A", "hello"), ("B", "# x")] := by
  have h := claim_C2 [⟨"A", [Elem.p "hello"], ""⟩, ⟨"B", [Elem.h 1 "x"], ""⟩]
    (by decide) (by decide)
  rw [h]
  decide

/-- Claim C6: the paragraph-wrapping step of Markup-to-HTML behaves as
specified — after the heading and inline substitutions, the text is
split on blank-line boundaries; each non-empty trimmed block not already
starting with a heading tag is wrapped in exactly one `<p>...</p>` pair,
heading-initial blocks are emitted unwrapped, empty blocks are dropped,
and the blocks are rejoined with newlines. -/
theorem claim_C6 (s : String) : markdownToHtml s = ⟨wrapParasSpec (substituted s.data)⟩ := by
  apply String.ext
  rw [markdownToHtml]
  simp only [data_mk]
  rw [markdownToHtmlL, wrapParas, wrapParasSpec, filterMap_wrapBlock_eq]

/-- Witness for C8: among three document items, the third has no
`<title>` element and is named `Chapter 3`. -/
theorem claim_C8_witness :
    (loadChapters [⟨true, some " My Title ", [], "r1"⟩, ⟨false, none, [], "x"⟩,
        ⟨true, some "B", [], "r2"⟩, ⟨true, none, [], "r3"⟩]).get? 2 =
      some ⟨"Chapter 3", [], "r3"⟩ :=
  claim_C8 [⟨true, some " My Title ", [], "r1"⟩, ⟨false, none, [], "x"⟩,
    ⟨true, some "B", [], "r2"⟩, ⟨true, none, [], "r3"⟩] 2 ⟨true, none, [], "r3"⟩ (by decide)

/-!
### Claim C7: block-level round trip

`_html_to_markdown` emits one markup block per supported element; for a
fragment of headings (levels 1-3) and non-empty paragraphs whose text
carries no marker characters, `_markdown_to_html` maps the blocks back
independently.  The lemmas below follow one heading pass through a
blank-line-joined block list.
-/

/-- Join blocks with a blank line (`"\n\n"`) between consecutive
blocks. -/
def blankJoin : List (List Char) → List Char
  | [] => []
  | b :: bs =>
    match bs with
    | [] => b
    | _ :: _ => b ++ '\n' :: '\n' :: blankJoin bs

/-- The opening tag a heading pass of level `k` inserts. -/
def hOpn : Nat → List Char
  | 1 => ['<', 'h', '1', '>']
  | 2 => ['<', 'h', '2', '>']
  | 3 => ['<', 'h', '3', '>']
  | _ => []

/-- The closing tag a heading pass of level `k` inserts. -/
def hCls : Nat → List Char
  | 1 => ['<', '/', 'h', '1', '>']
  | 2 => ['<', '/', 'h', '2', '>']
  | 3 => ['<', '/', 'h', '3', '>']
  | _ => []

/-- The markup block of one block-level element after the first `j`
heading passes: headings of level `≤ j` are already converted to their
tags, everything else is still the markup `_html_to_markdown` wrote. -/
def stageBlock (j : Nat) : Elem → List Char
  | .h k t => if k ≤ j then hOpn k ++ stripL t.data ++ hCls k
              else List.replicate k '#' ++ ' ' :: stripL t.data
  | .p t => stripL t.data
  | _ => []

/-- A block-level element the round trip preserves: a heading of level
1-3 or a paragraph, with pattern-free text that is non-empty once
trimmed. -/
def blockPlain : Elem → Prop
  | .h k t => (k = 1 ∨ k = 2 ∨ k = 3) ∧ (∀ c ∈ t.data, plainChar c = true) ∧
      stripL t.data ≠ []
  | .p t => (∀ c ∈ t.data, plainChar c = true) ∧ stripL t.data ≠ []
  | _ => False

/-- The canonical HTML line `_markdown_to_html` regenerates for one
block-level element. -/
def canonHtml : Elem → List Char
  | .h k t => hOpn k ++ stripL t.data ++ hCls k
  | .p t => "<p>".data ++ stripL t.data ++ "</p>".data
  | _ => []

/-- Unfold a two-block blank join. -/
theorem blankJoin_cons_cons (b b2 : List Char) (bs : List (List Char)) :
    blankJoin (b :: b2 :: bs) = b ++ '\n' :: '\n' :: blankJoin (b2 :: bs) := rfl

/-- A heading pass emits nothing from an empty text. -/
theorem headFuel_nil (hs opn cls : List Char) (n : Nat) (b : Bool) :
    headFuel hs opn cls n b [] = [] := by
  cases n <;> rfl

/-- `takeWhile` passes over a fully satisfying prefix. -/
theorem takeWhile_append_all (p : Char → Bool) (a b : List Char)
    (h : ∀ c ∈ a, p c = true) :
    List.takeWhile p (a ++ b) = a ++ List.takeWhile p b := by
  induction a with
  | nil => rfl
  | cons c a ih =>
    rw [List.cons_append, List.takeWhile_cons_of_pos (h c (List.mem_cons_self c a)),
      ih (fun x hx => h x (List.mem_cons_of_mem c hx)), List.cons_append]

/-- Characters survive a full strip. -/
theorem mem_of_mem_stripL (c : Char) (l : List Char) (h : c ∈ stripL l) : c ∈ l :=
  mem_of_mem_lstripL c l (mem_of_mem_rstripL c (lstripL l) h)

/-- Stripping never lengthens a list. -/
theorem stripL_length_le (l : List Char) : (stripL l).length ≤ l.length := by
  have h1 : (rstripL (lstripL l)).length ≤ (lstripL l).length := by
    rw [rstripL, List.length_reverse]
    calc (List.dropWhile isPySpace (lstripL l).reverse).length
        ≤ (lstripL l).reverse.length := (List.dropWhile_sublist _).length_le
      _ = (lstripL l).length := List.length_reverse _
  exact le_trans h1 ((List.dropWhile_sublist _).length_le)

/-- A non-empty strip starts with a non-whitespace character. -/
theorem stripL_head (y : List Char) (h : stripL y ≠ []) :
    ∃ c rest, stripL y = c :: rest ∧ isPySpace c = false := by
  cases hc : stripL y with
  | nil => exact absurd hc h
  | cons c rest =>
    refine ⟨c, rest, rfl, ?_⟩
    by_contra hcw
    have hws : isPySpace c = true := by
      cases hx : isPySpace c with
      | false => exact absurd hx hcw
      | true => rfl
    have h1 : stripL (stripL y) = stripL y := stripL_idem y
    rw [hc, stripL_cons_ws c rest hws] at h1
    have h2 : (stripL rest).length ≤ rest.length := stripL_length_le rest
    rw [h1] at h2
    simp at h2

/-- A list with non-whitespace first and last characters strips to
itself. -/
theorem stripL_of_ends (c : Char) (x : List Char) (hc : isPySpace c = false)
    (h2 : ∃ d y, (c :: x).reverse = d :: y ∧ isPySpace d = false) :
    stripL (c :: x) = c :: x := by
  rw [stripL, lstripL, List.dropWhile_cons_of_neg (by simp [hc])]
  obtain ⟨d, y, hrev, hd⟩ := h2
  rw [rstripL, hrev, List.dropWhile_cons_of_neg (by simp [hd]), ← hrev,
    List.reverse_reverse]

/-- The heading pattern fails on a line whose first character is not
`#`, whatever follows. -/
theorem headMatch_head_ne (hs' x : List Char) (c : Char) (hc : c ≠ '#') :
    headMatch ('#' :: hs') (c :: x) = none := by
  have hc' : ('#' : Char) ≠ c := fun he => hc he.symm
  rw [headMatch, leadsWith]
  simp [hc']

/-- The heading pattern matches a well-formed heading line exactly up
to the line end: the capture is the heading text and the line's
continuation (nothing, or a newline and more text) survives. -/
theorem headMatch_line (hs' T cont : List Char) (c : Char)
    (hc : isPySpace c = false) (hT : '\n' ∉ c :: T)
    (hcont : cont = [] ∨ ∃ r, cont = '\n' :: r) :
    headMatch ('#' :: hs') ((('#' :: hs') ++ ' ' :: c :: T) ++ cont) =
      some (c :: T, cont) := by
  have hcnl : c ≠ '\n' := fun he => hT (he ▸ List.mem_cons_self c T)
  have hTnl : ∀ x ∈ T, (!(x = '\n') : Bool) = true := by
    intro x hx
    have : x ≠ '\n' := fun he => hT (List.mem_cons_of_mem c (he ▸ hx))
    simp [this]
  have harg : (('#' :: hs') ++ ' ' :: c :: T) ++ cont =
      ('#' :: hs') ++ (' ' :: (c :: (T ++ cont))) := by simp
  rw [harg, headMatch, if_pos (leadsWith_append_self _ _)]
  simp only [List.drop_left]
  rw [List.takeWhile_cons_of_pos (show isPySpace ' ' = true by decide),
    List.takeWhile_cons_of_neg (by simp [hc]),
    List.dropWhile_cons_of_pos (show isPySpace ' ' = true by decide),
    List.dropWhile_cons_of_neg (by simp [hc])]
  rw [if_neg (by simp), if_neg (by simp)]
  rw [List.takeWhile_cons_of_pos (by simp [hcnl]),
    List.dropWhile_cons_of_pos (by simp [hcnl]),
    takeWhile_append_all _ _ _ hTnl, dropWhile_append_all _ _ _ hTnl]
  rcases hcont with rfl | ⟨r, rfl⟩
  · simp
  · rw [List.takeWhile_cons_of_neg (by simp), List.dropWhile_cons_of_neg (by simp)]
    simp

/-- Fewer leading hashes than the pattern wants: the literal prefix
fails at the space. -/
theorem leadsWith_hashes_space (d : Nat) :
    ∀ (j : Nat) (X : List Char),
      leadsWith (List.replicate (j + d + 1) '#')
        (List.replicate j '#' ++ ' ' :: X) = false := by
  intro j
  induction j with
  | zero =>
    intro X
    rw [show (0 + d + 1) = d + 1 by omega, List.replicate_succ]
    simp [leadsWith]
  | succ i ih =>
    intro X
    rw [show (i + 1 + d + 1) = (i + d + 1) + 1 by omega,
      List.replicate_succ '#' (i + d + 1), List.replicate_succ '#' i,
      List.cons_append, leadsWith]
    simp [ih X]

/-- The heading pattern fails on a heading line of strictly lower
level, whatever follows. -/
theorem headMatch_fewer_hashes (k j : Nat) (hlt : j < k) (X : List Char) :
    headMatch (List.replicate k '#') (List.replicate j '#' ++ ' ' :: X) = none := by
  obtain ⟨d, rfl⟩ : ∃ d, k = j + d + 1 := ⟨k - j - 1, by omega⟩
  rw [headMatch, leadsWith_hashes_space d j X]
  simp

/-- The heading pattern of level `k` fails when more hashes follow the
`k` it consumes: `\s+` finds no whitespace. -/
theorem headMatch_extra_hashes (k : Nat) (Y : List Char) :
    headMatch (List.replicate k '#') (List.replicate k '#' ++ '#' :: Y) = none := by
  rw [headMatch, if_pos (leadsWith_append_self _ _)]
  simp only [List.drop_left]
  rw [List.takeWhile_cons_of_neg (by decide)]
  simp

/-- Every character of a blank join is a separator newline or comes
from a block. -/
theorem mem_blankJoin (x : Char) : ∀ (bs : List (List Char)), x ∈ blankJoin bs →
    x = '\n' ∨ ∃ b ∈ bs, x ∈ b
  | [] => by intro h; simp [blankJoin] at h
  | [b] => by
    intro h
    exact Or.inr ⟨b, List.mem_cons_self b [], h⟩
  | b :: b2 :: rest => by
    intro h
    rw [blankJoin_cons_cons] at h
    rcases List.mem_append.mp h with h1 | h1
    · exact Or.inr ⟨b, List.mem_cons_self b _, h1⟩
    · rcases List.mem_cons.mp h1 with h2 | h2
      · exact Or.inl h2
      · rcases List.mem_cons.mp h2 with h3 | h3
        · exact Or.inl h3
        · rcases mem_blankJoin x (b2 :: rest) h3 with h4 | ⟨bb, hbb, hxb⟩
          · exact Or.inl h4
          · exact Or.inr ⟨bb, List.mem_cons_of_mem b hbb, hxb⟩

/-- Away from a line start, newline-free text is copied unchanged. -/
theorem headFuel_false_no_nl (hs opn cls : List Char) :
    ∀ (n : Nat) (l : List Char), l.length ≤ n → '\n' ∉ l →
      headFuel hs opn cls n false l = l := by
  intro n
  induction n with
  | zero => intro l _ _; rfl
  | succ n ih =>
    intro l hlen hmem
    cases l with
    | nil => rfl
    | cons c rest =>
      have hc : c ≠ '\n' := fun he => hmem (he ▸ List.mem_cons_self c rest)
      rw [headFuel]
      simp only [Bool.false_eq_true, if_false]
      rw [decide_eq_false hc, ih rest (by simpa using hlen)
        (fun hm => hmem (List.mem_cons_of_mem c hm))]

/-- Away from a line start, the scanner copies a newline-free chunk and
its terminating newline, then stands at a line start. -/
theorem headFuel_false_mid (hs opn cls : List Char) :
    ∀ (n : Nat) (b r : List Char), '\n' ∉ b → b.length + 1 + r.length ≤ n →
      headFuel hs opn cls n false (b ++ '\n' :: r) =
        b ++ '\n' :: headFuel hs opn cls (n - (b.length + 1)) true r := by
  intro n
  induction n with
  | zero => intro b r _ hlen; exact absurd hlen (by omega)
  | succ n ih =>
    intro b r hb hlen
    cases b with
    | nil =>
      simp only [List.nil_append, List.length_nil]
      rw [show n + 1 - (0 + 1) = n by omega, headFuel]
      simp only [Bool.false_eq_true, if_false]
      rw [show decide True = true from rfl]
    | cons c b' =>
      have hc : c ≠ '\n' := fun he => hb (he ▸ List.mem_cons_self c b')
      have hb' : '\n' ∉ b' := fun hm => hb (List.mem_cons_of_mem c hm)
      have hlen' : b'.length + 1 + r.length ≤ n := by
        simp only [List.length_cons] at hlen; omega
      rw [List.cons_append, headFuel]
      simp only [Bool.false_eq_true, if_false]
      rw [decide_eq_false hc, ih b' r hb' hlen']
      simp only [List.length_cons, List.cons_append]
      rw [show n - (b'.length + 1) = n + 1 - (b'.length + 1 + 1) by omega]

/-- At a line start, a newline-free text the pattern does not match is
copied unchanged. -/
theorem headFuel_true_skip (hs opn cls : List Char) (n : Nat) (b : List Char)
    (hb : '\n' ∉ b) (hm : headMatch hs b = none) (hn : b.length ≤ n) :
    headFuel hs opn cls n true b = b := by
  cases b with
  | nil => exact headFuel_nil _ _ _ _ _
  | cons c rest =>
    cases n with
    | zero => simp at hn
    | succ n =>
      have hc : c ≠ '\n' := fun he => hb (he ▸ List.mem_cons_self c rest)
      rw [headFuel, hm]
      simp only [if_true]
      rw [decide_eq_false hc, headFuel_false_no_nl hs opn cls n rest
        (by simpa using hn) (fun hx => hb (List.mem_cons_of_mem c hx))]

/-- At a line start, an empty line is copied and the scanner stays at a
line start. -/
theorem headFuel_empty_line (hs' opn cls : List Char) (n : Nat) (J : List Char)
    (hn : J.length + 1 ≤ n) :
    headFuel ('#' :: hs') opn cls n true ('\n' :: J) =
      '\n' :: headFuel ('#' :: hs') opn cls (n - 1) true J := by
  obtain ⟨n1, rfl⟩ : ∃ n1, n = n1 + 1 := ⟨n - 1, by omega⟩
  rw [headFuel, headMatch_head_ne hs' J '\n' (by decide)]
  simp only [if_true]
  rw [show decide True = true from rfl]
  simp

/-- From a non-line-start position, a blank-line separator is copied and
the following text is processed from a line start. -/
theorem headFuel_sep (hs' opn cls : List Char) (n : Nat) (J : List Char)
    (hn : J.length + 2 ≤ n) :
    headFuel ('#' :: hs') opn cls n false ('\n' :: '\n' :: J) =
      '\n' :: '\n' :: headFuel ('#' :: hs') opn cls (n - 2) true J := by
  obtain ⟨n1, rfl⟩ : ∃ n1, n = n1 + 1 := ⟨n - 1, by omega⟩
  rw [headFuel]
  simp only [Bool.false_eq_true, if_false]
  rw [show decide True = true from rfl,
    headFuel_empty_line hs' opn cls n1 J (by omega),
    show n1 - 1 = n1 + 1 - 2 by omega]

/-- A heading pass maps a blank-line-joined block list block by block:
each block either robustly fails to match (whatever follows it) or is a
whole heading line of the pass's level. -/
theorem headFuel_blankJoin (hs' opn cls : List Char) :
    ∀ (bs : List (List Char)), bs ≠ [] →
      (∀ b ∈ bs, b ≠ [] ∧ '\n' ∉ b ∧
        ((∀ cont, headMatch ('#' :: hs') (b ++ cont) = none) ∨
         (∃ c T, b = ('#' :: hs') ++ ' ' :: c :: T ∧ isPySpace c = false ∧
           '\n' ∉ c :: T))) →
      ∀ n, (blankJoin bs).length ≤ n →
        headFuel ('#' :: hs') opn cls n true (blankJoin bs) =
          blankJoin (bs.map (fun b =>
            match headMatch ('#' :: hs') b with
            | some pr => opn ++ pr.1 ++ cls
            | none => b)) := by
  intro bs
  induction bs with
  | nil => intro h; exact absurd rfl h
  | cons b bs ih =>
    intro _ hok n hn
    obtain ⟨hbne, hbnl, hbcase⟩ := hok b (List.mem_cons_self b bs)
    cases bs with
    | nil =>
      simp only [List.map_cons, List.map_nil]
      rcases hbcase with hfail | ⟨c, T, hb, hc, hT⟩
      · have hm : headMatch ('#' :: hs') b = none := by
          have h0 := hfail []
          rwa [List.append_nil] at h0
        rw [show blankJoin [b] = b from rfl] at hn ⊢
        rw [headFuel_true_skip _ _ _ n b hbnl hm hn, hm]
        rfl
      · have hm : headMatch ('#' :: hs') b = some (c :: T, []) := by
          have h0 := headMatch_line hs' T [] c hc hT (Or.inl rfl)
          rw [List.append_nil] at h0
          rw [hb]
          exact h0
        rw [show blankJoin [b] = b from rfl] at hn ⊢
        rw [hm]
        subst hb
        cases n with
        | zero => simp at hn
        | succ n =>
          rw [show (('#' :: hs') ++ ' ' :: c :: T) =
              '#' :: (hs' ++ ' ' :: c :: T) from rfl, headFuel,
            show headMatch ('#' :: hs') ('#' :: (hs' ++ ' ' :: c :: T)) =
              some (c :: T, []) from hm]
          simp only [if_true]
          rw [headFuel_nil]
          simp [blankJoin]
    | cons b2 rest =>
      have hok' : ∀ x ∈ b2 :: rest, x ≠ [] ∧ '\n' ∉ x ∧
          ((∀ cont, headMatch ('#' :: hs') (x ++ cont) = none) ∨
           (∃ c T, x = ('#' :: hs') ++ ' ' :: c :: T ∧ isPySpace c = false ∧
             '\n' ∉ c :: T)) :=
        fun x hx => hok x (List.mem_cons_of_mem b hx)
      rw [blankJoin_cons_cons] at hn ⊢
      simp only [List.map_cons]
      rw [blankJoin_cons_cons]
      have hlen0 : b.length + 2 + (blankJoin (b2 :: rest)).length ≤ n := by
        simp only [List.length_append, List.length_cons] at hn; omega
      rcases hbcase with hfail | ⟨c, T, hb, hc, hT⟩
      · cases hbshape : b with
        | nil => exact absurd hbshape hbne
        | cons c0 b'' =>
          subst hbshape
          have hc0 : c0 ≠ '\n' := fun he => hbnl (he ▸ List.mem_cons_self c0 b'')
          have hb'' : '\n' ∉ b'' := fun hx => hbnl (List.mem_cons_of_mem c0 hx)
          cases n with
          | zero => exact absurd hlen0 (by omega)
          | succ n =>
            have hm0 : headMatch ('#' :: hs')
                ((c0 :: b'') ++ ('\n' :: '\n' :: blankJoin (b2 :: rest))) = none :=
              hfail _
            simp only [List.cons_append] at hm0
            rw [List.cons_append, headFuel, hm0]
            simp only [if_true]
            rw [decide_eq_false hc0]
            have hlen1 : b''.length + 1 + ('\n' :: blankJoin (b2 :: rest)).length ≤ n := by
              simp only [List.length_cons] at hlen0 ⊢; omega
            rw [headFuel_false_mid _ _ _ n b'' ('\n' :: blankJoin (b2 :: rest)) hb'' hlen1,
              headFuel_empty_line hs' opn cls (n - (b''.length + 1))
                (blankJoin (b2 :: rest)) (by simp only [List.length_cons] at hlen0; omega),
              ih (List.cons_ne_nil b2 rest) hok' (n - (b''.length + 1) - 1)
                (by simp only [List.length_cons] at hlen0; omega)]
            have hmb : headMatch ('#' :: hs') (c0 :: b'') = none := by
              have h0 := hfail []
              rwa [List.append_nil] at h0
            rw [hmb]
            simp [List.cons_append]
      · subst hb
        cases n with
        | zero => exact absurd hlen0 (by omega)
        | succ n =>
          have hm1 : headMatch ('#' :: hs')
              ((('#' :: hs') ++ ' ' :: c :: T) ++ '\n' :: '\n' :: blankJoin (b2 :: rest)) =
              some (c :: T, '\n' :: '\n' :: blankJoin (b2 :: rest)) :=
            headMatch_line hs' T _ c hc hT (Or.inr ⟨_, rfl⟩)
          rw [show (('#' :: hs') ++ ' ' :: c :: T) ++ '\n' :: '\n' :: blankJoin (b2 :: rest) =
              '#' :: ((hs' ++ ' ' :: c :: T) ++ '\n' :: '\n' :: blankJoin (b2 :: rest))
              from by simp, headFuel,
            show headMatch ('#' :: hs')
                ('#' :: ((hs' ++ ' ' :: c :: T) ++ '\n' :: '\n' :: blankJoin (b2 :: rest))) =
                some (c :: T, '\n' :: '\n' :: blankJoin (b2 :: rest)) from hm1]
          simp only [if_true]
          rw [headFuel_sep hs' opn cls n (blankJoin (b2 :: rest))
              (by simp only [List.length_append, List.length_cons] at hlen0 ⊢; omega),
            ih (List.cons_ne_nil b2 rest) hok' (n - 2)
              (by simp only [List.length_append, List.length_cons] at hlen0; omega)]
          have hmb : headMatch ('#' :: hs') (('#' :: hs') ++ ' ' :: c :: T) =
              some (c :: T, []) := by
            have h0 := headMatch_line hs' T [] c hc hT (Or.inl rfl)
            rwa [List.append_nil] at h0
          rw [hmb]
          simp [List.cons_append, List.append_assoc]

/-- Trimmed pattern-free text stays pattern-free. -/
theorem plain_stripL (t : List Char) (h : ∀ c ∈ t, plainChar c = true) :
    ∀ c ∈ stripL t, plainChar c = true :=
  fun c hc => h c (mem_of_mem_stripL c t hc)

/-- Pattern-free text holds no newline. -/
theorem plain_no_nl (T : List Char) (h : ∀ c ∈ T, plainChar c = true) : '\n' ∉ T :=
  not_mem_of_plain '\n' T h (by decide)

/-- The characters of a heading tag. -/
theorem tag_chars (k : Nat) (hk : k = 1 ∨ k = 2 ∨ k = 3) (x : Char)
    (hx : x ∈ hOpn k ∨ x ∈ hCls k) :
    x = '<' ∨ x = 'h' ∨ x = '/' ∨ x = '>' ∨ x = '1' ∨ x = '2' ∨ x = '3' := by
  rcases hk with rfl | rfl | rfl <;> rcases hx with hx | hx <;>
    simp [hOpn, hCls] at hx <;> tauto

/-- A markup heading line with at least one hash more than the pattern
robustly fails it: `\s+` finds no whitespace after the pattern's
hashes. -/
theorem headMatch_deeper (j k : Nat) (hk : j + 2 ≤ k) (X : List Char) :
    headMatch ('#' :: List.replicate j '#') (List.replicate k '#' ++ ' ' :: X) = none := by
  have hrep : List.replicate k '#' =
      List.replicate (j + 1) '#' ++ '#' :: List.replicate (k - j - 2) '#' := by
    rw [← List.replicate_succ, ← List.replicate_add]
    congr 1
    omega
  have h0 := headMatch_extra_hashes (j + 1)
    (List.replicate (k - j - 2) '#' ++ ' ' :: X)
  rw [List.replicate_succ] at h0
  rw [hrep, List.replicate_succ, List.append_assoc]
  rw [show ('#' :: List.replicate (k - j - 2) '#') ++ ' ' :: X =
      '#' :: (List.replicate (k - j - 2) '#' ++ ' ' :: X) from rfl]
  exact h0

/-- A converted heading line robustly fails every heading pattern. -/
theorem headMatch_tag (hs' : List Char) (k : Nat) (hk : k = 1 ∨ k = 2 ∨ k = 3)
    (X : List Char) :
    headMatch ('#' :: hs') (hOpn k ++ X) = none := by
  rcases hk with rfl | rfl | rfl <;>
    { simp only [hOpn, List.cons_append]
      exact headMatch_head_ne hs' _ '<' (by decide) }

/-- Staged blocks never contain a character the later passes or the
paragraph wrapper react to, other than the listed tag characters. -/
theorem stage_block_no_char (j : Nat) (e : Elem) (he : blockPlain e) (x : Char)
    (hp : plainChar x = false) (hx1 : x ≠ '#') (hx2 : x ≠ ' ')
    (hx3 : x ≠ '<') (hx4 : x ≠ 'h') (hx5 : x ≠ '/') (hx6 : x ≠ '>')
    (hx7 : x ≠ '1') (hx8 : x ≠ '2') (hx9 : x ≠ '3') :
    x ∉ stageBlock j e := by
  cases e with
  | h k t =>
    obtain ⟨hk, hplain, hne⟩ := he
    have hT : x ∉ stripL t.data := by
      intro hx
      exact absurd (plain_stripL t.data hplain x hx) (by simp [hp])
    simp only [stageBlock]
    by_cases hle : k ≤ j
    · rw [if_pos hle]
      intro hmem
      rcases List.mem_append.mp hmem with h1 | h1
      · rcases List.mem_append.mp h1 with h2 | h2
        · rcases tag_chars k hk x (Or.inl h2) with h | h | h | h | h | h | h <;>
            simp_all
        · exact hT h2
      · rcases tag_chars k hk x (Or.inr h1) with h | h | h | h | h | h | h <;>
          simp_all
    · rw [if_neg hle]
      intro hmem
      rcases List.mem_append.mp hmem with h1 | h1
      · exact hx1 (List.mem_replicate.mp h1).2
      · rcases List.mem_cons.mp h1 with h2 | h2
        · exact hx2 h2
        · exact hT h2
  | p t =>
    obtain ⟨hplain, hne⟩ := he
    simp only [stageBlock]
    intro hx
    exact absurd (plain_stripL t.data hplain x hx) (by simp [hp])
  | strong t => exact he.elim
  | em t => exact he.elim
  | u t => exact he.elim

/-- Staged blocks are never empty. -/
theorem stage_block_ne_nil (j : Nat) (e : Elem) (he : blockPlain e) :
    stageBlock j e ≠ [] := by
  cases e with
  | h k t =>
    obtain ⟨hk, hplain, hne⟩ := he
    simp only [stageBlock]
    by_cases hle : k ≤ j
    · rw [if_pos hle]
      rcases hk with rfl | rfl | rfl <;> simp [hOpn]
    · rw [if_neg hle]
      simp
  | p t => exact he.2
  | strong t => exact he.elim
  | em t => exact he.elim
  | u t => exact he.elim

/-- Each staged block either robustly fails the level-`j+1` pattern or
is a whole level-`j+1` heading line. -/
theorem stage_block_ok (j : Nat) (e : Elem) (he : blockPlain e) :
    (∀ cont, headMatch ('#' :: List.replicate j '#') (stageBlock j e ++ cont) = none) ∨
    (∃ c T, stageBlock j e = ('#' :: List.replicate j '#') ++ ' ' :: c :: T ∧
      isPySpace c = false ∧ '\n' ∉ c :: T) := by
  cases e with
  | h k t =>
    obtain ⟨hk, hplain, hne⟩ := he
    obtain ⟨c, T', hT', hcws⟩ := stripL_head t.data hne
    have hnlT : '\n' ∉ stripL t.data := plain_no_nl _ (plain_stripL t.data hplain)
    simp only [stageBlock]
    by_cases hle : k ≤ j
    · rw [if_pos hle]
      refine Or.inl (fun cont => ?_)
      rw [show (hOpn k ++ stripL t.data ++ hCls k) ++ cont =
          hOpn k ++ (stripL t.data ++ (hCls k ++ cont)) from by simp]
      exact headMatch_tag _ k hk _
    · rw [if_neg hle]
      by_cases heq : k = j + 1
      · subst heq
        refine Or.inr ⟨c, T', ?_, hcws, hT' ▸ hnlT⟩
        rw [hT', ← List.replicate_succ]
      · refine Or.inl (fun cont => ?_)
        rw [show (List.replicate k '#' ++ ' ' :: stripL t.data) ++ cont =
            List.replicate k '#' ++ ' ' :: (stripL t.data ++ cont) from by simp]
        exact headMatch_deeper j k (by omega) _
  | p t =>
    obtain ⟨hplain, hne⟩ := he
    obtain ⟨c, T', hT', hcws⟩ := stripL_head t.data hne
    have hch : plainChar c = true :=
      plain_stripL t.data hplain c (hT' ▸ List.mem_cons_self c T')
    have hc : c ≠ '#' := by
      intro he'
      rw [he'] at hch
      exact absurd hch (by decide)
    refine Or.inl (fun cont => ?_)
    simp only [stageBlock]
    rw [hT', List.cons_append]
    exact headMatch_head_ne _ _ c hc
  | strong t => exact he.elim
  | em t => exact he.elim
  | u t => exact he.elim

/-- The level-`j+1` pass maps each staged block to its next stage. -/
theorem stage_block_map (j : Nat) (e : Elem) (he : blockPlain e) :
    (match headMatch ('#' :: List.replicate j '#') (stageBlock j e) with
     | some pr => hOpn (j + 1) ++ pr.1 ++ hCls (j + 1)
     | none => stageBlock j e) = stageBlock (j + 1) e := by
  cases e with
  | h k t =>
    obtain ⟨hk, hplain, hne⟩ := he
    obtain ⟨c, T', hT', hcws⟩ := stripL_head t.data hne
    have hnlT : '\n' ∉ stripL t.data := plain_no_nl _ (plain_stripL t.data hplain)
    simp only [stageBlock]
    by_cases hle : k ≤ j
    · rw [if_pos hle, if_pos (by omega)]
      have hm : headMatch ('#' :: List.replicate j '#')
          (hOpn k ++ stripL t.data ++ hCls k) = none := by
        rw [List.append_assoc]
        exact headMatch_tag _ k hk _
      rw [hm]
    · by_cases heq : k = j + 1
      · subst heq
        rw [if_neg hle, if_pos (le_refl _)]
        have hmm : headMatch ('#' :: List.replicate j '#')
            (List.replicate (j + 1) '#' ++ ' ' :: stripL t.data) =
            some (c :: T', []) := by
          rw [List.replicate_succ, hT']
          have h0 := headMatch_line (List.replicate j '#') T' [] c hcws
            (hT' ▸ hnlT) (Or.inl rfl)
          rwa [List.append_nil] at h0
        rw [hmm, hT']
      · rw [if_neg hle, if_neg (by omega)]
        have hm : headMatch ('#' :: List.replicate j '#')
            (List.replicate k '#' ++ ' ' :: stripL t.data) = none :=
          headMatch_deeper j k (by omega) _
        rw [hm]
  | p t =>
    obtain ⟨hplain, hne⟩ := he
    obtain ⟨c, T', hT', hcws⟩ := stripL_head t.data hne
    have hch : plainChar c = true :=
      plain_stripL t.data hplain c (hT' ▸ List.mem_cons_self c T')
    have hc : c ≠ '#' := by
      intro he'
      rw [he'] at hch
      exact absurd hch (by decide)
    simp only [stageBlock]
    have hm : headMatch ('#' :: List.replicate j '#') (stripL t.data) = none := by
      rw [hT']
      exact headMatch_head_ne _ _ c hc
    rw [hm]
  | strong t => exact he.elim
  | em t => exact he.elim
  | u t => exact he.elim

/-- One heading pass converts exactly its level across the joined
blocks. -/
theorem headPass_stage (j : Nat) (frag : List Elem)
    (hne : frag ≠ []) (hbp : ∀ e ∈ frag, blockPlain e) :
    headPass (j + 1) (hOpn (j + 1)) (hCls (j + 1))
        (blankJoin (frag.map (stageBlock j))) =
      blankJoin (frag.map (stageBlock (j + 1))) := by
  rw [headPass, List.replicate_succ]
  rw [headFuel_blankJoin (List.replicate j '#') (hOpn (j + 1)) (hCls (j + 1))
    (frag.map (stageBlock j)) (by simpa using hne)
    (fun b hb => by
      obtain ⟨e, he, rfl⟩ := List.mem_map.mp hb
      exact ⟨stage_block_ne_nil j e (hbp e he),
        stage_block_no_char j e (hbp e he) '\n' (by decide) (by decide) (by decide)
          (by decide) (by decide) (by decide) (by decide) (by decide) (by decide)
          (by decide),
        stage_block_ok j e (hbp e he)⟩)
    _ le_rfl]
  rw [List.map_map]
  congr 1
  apply List.map_congr_left
  intro e he
  exact stage_block_map j e (hbp e he)

/-- Appending one element and reversing exposes it first. -/
theorem reverse_append_last (X : List Char) (q : Char) :
    (X ++ [q]).reverse = q :: X.reverse := by simp

/-- The raw concatenation of blocks each followed by a blank line is
the blank join plus one trailing blank line. -/
theorem catL_blocks : ∀ (bs : List (List Char)), bs ≠ [] →
    catL (bs.map (fun b => b ++ ['\n', '\n'])) = blankJoin bs ++ ['\n', '\n'] := by
  intro bs
  induction bs with
  | nil => intro h; exact absurd rfl h
  | cons b bs ih =>
    intro _
    cases bs with
    | nil => simp [catL, blankJoin]
    | cons b2 rest =>
      have ih' := ih (List.cons_ne_nil b2 rest)
      simp only [List.map_cons] at ih' ⊢
      rw [catL, ih', blankJoin_cons_cons]
      simp

/-- A blank join of stripped non-empty blocks carries no leading
whitespace and ends in a non-whitespace character. -/
theorem blankJoin_strip : ∀ (bs : List (List Char)), bs ≠ [] →
    (∀ b ∈ bs, stripL b = b ∧ b ≠ []) →
    lstripL (blankJoin bs) = blankJoin bs ∧
      ∃ c rest, (blankJoin bs).reverse = c :: rest ∧ isPySpace c = false := by
  intro bs
  induction bs with
  | nil => intro h; exact absurd rfl h
  | cons b bs ih =>
    intro _ hcond
    obtain ⟨hbs, hbne⟩ := hcond b (List.mem_cons_self b bs)
    obtain ⟨c, crest, hhead, hcws⟩ : ∃ c crest, b = c :: crest ∧ isPySpace c = false := by
      obtain ⟨c, crest, h1, h2⟩ := stripL_head b (by rw [hbs]; exact hbne)
      rw [hbs] at h1
      exact ⟨c, crest, h1, h2⟩
    obtain ⟨d, y, hrev, hdws⟩ := stripped_reverse_head b hbs hbne
    cases bs with
    | nil =>
      refine ⟨?_, d, y, hrev, hdws⟩
      rw [show blankJoin [b] = b from rfl, hhead, lstripL,
        List.dropWhile_cons_of_neg (by simp [hcws])]
    | cons b2 rest2 =>
      obtain ⟨ih1, e, z, hez, hews⟩ := ih (List.cons_ne_nil b2 rest2)
        (fun x hx => hcond x (List.mem_cons_of_mem b hx))
      rw [blankJoin_cons_cons]
      constructor
      · rw [hhead, List.cons_append, lstripL,
          List.dropWhile_cons_of_neg (by simp [hcws])]
      · refine ⟨e, z ++ '\n' :: '\n' :: b.reverse, ?_, hews⟩
        rw [List.reverse_append,
          show ('\n' :: '\n' :: blankJoin (b2 :: rest2)).reverse =
            (blankJoin (b2 :: rest2)).reverse ++ ['\n', '\n'] from by simp,
          hez]
        simp

/-- A blank join of stripped non-empty blocks strips to itself. -/
theorem blankJoin_stripL (bs : List (List Char)) (hne : bs ≠ [])
    (hcond : ∀ b ∈ bs, stripL b = b ∧ b ≠ []) :
    stripL (blankJoin bs) = blankJoin bs := by
  obtain ⟨h1, c, rest, hrev, hcws⟩ := blankJoin_strip bs hne hcond
  rw [stripL, h1, rstripL, hrev, List.dropWhile_cons_of_neg (by simp [hcws]),
    ← hrev, List.reverse_reverse]

/-- The stage-0 markup block of a block-level element is stripped. -/
theorem stage0_stripped (e : Elem) (he : blockPlain e) :
    stripL (stageBlock 0 e) = stageBlock 0 e := by
  cases e with
  | h k t =>
    obtain ⟨hk, hplain, hne⟩ := he
    obtain ⟨d, y, hrev, hdws⟩ :=
      stripped_reverse_head (stripL t.data) (stripL_idem t.data) hne
    have hk1 : ¬ k ≤ 0 := by rcases hk with rfl | rfl | rfl <;> omega
    simp only [stageBlock]
    rw [if_neg hk1]
    obtain ⟨j, rfl⟩ : ∃ j, k = j + 1 := ⟨k - 1, by omega⟩
    rw [List.replicate_succ, List.cons_append]
    apply stripL_of_ends '#' _ (by decide)
    refine ⟨d, y ++ (('#' :: List.replicate j '#') ++ [' ']).reverse, ?_, hdws⟩
    rw [show '#' :: (List.replicate j '#' ++ ' ' :: stripL t.data) =
        (('#' :: List.replicate j '#') ++ [' ']) ++ stripL t.data from by simp,
      List.reverse_append, hrev]
    simp
  | p t => exact stripL_idem t.data
  | strong t => exact he.elim
  | em t => exact he.elim
  | u t => exact he.elim

/-- For a fragment of block-level elements, `_html_to_markdown`
produces exactly the blank-line join of the markup blocks. -/
theorem markup_blocks (frag : List Elem) (hne : frag ≠ [])
    (hbp : ∀ e ∈ frag, blockPlain e) :
    htmlToMarkdownL frag = blankJoin (frag.map (stageBlock 0)) := by
  have hmap : frag.map elemMarkup =
      (frag.map (stageBlock 0)).map (fun b => b ++ ['\n', '\n']) := by
    rw [List.map_map]
    apply List.map_congr_left
    intro e he
    have hbpe := hbp e he
    cases e with
    | h k t =>
      obtain ⟨hk, hplain, hne'⟩ := hbpe
      simp only [elemMarkup, Function.comp, stageBlock]
      rw [if_neg (by rcases hk with rfl | rfl | rfl <;> omega)]
    | p t =>
      obtain ⟨hplain, hne'⟩ := hbpe
      obtain ⟨c, T', hT', hcws⟩ := stripL_head t.data hne'
      simp only [elemMarkup, Function.comp, stageBlock]
      rw [hT']
      simp
    | strong t => exact hbpe.elim
    | em t => exact hbpe.elim
    | u t => exact hbpe.elim
  rw [htmlToMarkdownL, hmap, catL_blocks _ (by simpa using hne),
    stripL_append_ws _ _ (by decide)]
  exact blankJoin_stripL _ (by simpa using hne)
    (fun b hb => by
      obtain ⟨e, he, rfl⟩ := List.mem_map.mp hb
      exact ⟨stage0_stripped e (hbp e he), stage_block_ne_nil 0 e (hbp e he)⟩)

/-- Splitting on a blank line after a newline-free block. -/
theorem splitBlank_append_blank (b r : List Char) (hb : '\n' ∉ b) :
    splitBlank (b ++ '\n' :: '\n' :: r) = b :: splitBlank r := by
  induction b with
  | nil =>
    rw [List.nil_append, splitBlank, if_pos (by decide)]
  | cons c b' ih =>
    have hc : c ≠ '\n' := fun he => hb (he ▸ List.mem_cons_self c b')
    have hb' : '\n' ∉ b' := fun hx => hb (List.mem_cons_of_mem c hx)
    have ih' := ih hb'
    cases b' with
    | nil =>
      simp only [List.cons_append, List.nil_append]
      rw [splitBlank, if_neg (by simp [hc]),
        show splitBlank ('\n' :: '\n' :: r) = [] :: splitBlank r from by
          rw [splitBlank, if_pos (by decide)]]
    | cons d b'' =>
      simp only [List.cons_append] at ih' ⊢
      rw [splitBlank, if_neg (by simp [hc]), ih']

/-- A blank join of newline-free blocks splits back into the blocks. -/
theorem splitBlank_blankJoin : ∀ (bs : List (List Char)), bs ≠ [] →
    (∀ b ∈ bs, '\n' ∉ b) → splitBlank (blankJoin bs) = bs := by
  intro bs
  induction bs with
  | nil => intro h; exact absurd rfl h
  | cons b bs ih =>
    intro _ hnl
    cases bs with
    | nil => exact splitBlank_single b (hnl b (List.mem_cons_self b []))
    | cons b2 rest =>
      rw [blankJoin_cons_cons,
        splitBlank_append_blank _ _ (hnl b (List.mem_cons_self b _)),
        ih (List.cons_ne_nil b2 rest) (fun x hx => hnl x (List.mem_cons_of_mem b hx))]

/-- The paragraph step wraps each final-stage block into its canonical
HTML line. -/
theorem wrap_stage (e : Elem) (he : blockPlain e) :
    wrapBlock (stageBlock 3 e) = some (canonHtml e) := by
  cases e with
  | h k t =>
    obtain ⟨hk, hplain, hne⟩ := he
    have hle : k ≤ 3 := by rcases hk with rfl | rfl | rfl <;> omega
    simp only [stageBlock, canonHtml]
    rw [if_pos hle]
    rcases hk with rfl | rfl | rfl
    · have hstrip : stripL (hOpn 1 ++ stripL t.data ++ hCls 1) =
          hOpn 1 ++ stripL t.data ++ hCls 1 := by
        rw [show hOpn 1 ++ stripL t.data ++ hCls 1 =
            '<' :: (['h', '1', '>'] ++ stripL t.data ++ hCls 1) from by simp [hOpn]]
        apply stripL_of_ends '<' _ (by decide)
        refine ⟨'>', ('<' :: (['h', '1', '>'] ++ stripL t.data ++ ['<', '/', 'h', '1'])).reverse,
          ?_, by decide⟩
        rw [show '<' :: (['h', '1', '>'] ++ stripL t.data ++ hCls 1) =
            ('<' :: (['h', '1', '>'] ++ stripL t.data ++ ['<', '/', 'h', '1'])) ++ ['>']
            from by simp [hCls], reverse_append_last]
      rw [wrapBlock, hstrip, if_neg (by simp [hOpn]),
        if_pos (by simp [hOpn, leadsWith])]
    · have hstrip : stripL (hOpn 2 ++ stripL t.data ++ hCls 2) =
          hOpn 2 ++ stripL t.data ++ hCls 2 := by
        rw [show hOpn 2 ++ stripL t.data ++ hCls 2 =
            '<' :: (['h', '2', '>'] ++ stripL t.data ++ hCls 2) from by simp [hOpn]]
        apply stripL_of_ends '<' _ (by decide)
        refine ⟨'>', ('<' :: (['h', '2', '>'] ++ stripL t.data ++ ['<', '/', 'h', '2'])).reverse,
          ?_, by decide⟩
        rw [show '<' :: (['h', '2', '>'] ++ stripL t.data ++ hCls 2) =
            ('<' :: (['h', '2', '>'] ++ stripL t.data ++ ['<', '/', 'h', '2'])) ++ ['>']
            from by simp [hCls], reverse_append_last]
      rw [wrapBlock, hstrip, if_neg (by simp [hOpn]),
        if_pos (by simp [hOpn, leadsWith])]
    · have hstrip : stripL (hOpn 3 ++ stripL t.data ++ hCls 3) =
          hOpn 3 ++ stripL t.data ++ hCls 3 := by
        rw [show hOpn 3 ++ stripL t.data ++ hCls 3 =
            '<' :: (['h', '3', '>'] ++ stripL t.data ++ hCls 3) from by simp [hOpn]]
        apply stripL_of_ends '<' _ (by decide)
        refine ⟨'>', ('<' :: (['h', '3', '>'] ++ stripL t.data ++ ['<', '/', 'h', '3'])).reverse,
          ?_, by decide⟩
        rw [show '<' :: (['h', '3', '>'] ++ stripL t.data ++ hCls 3) =
            ('<' :: (['h', '3', '>'] ++ stripL t.data ++ ['<', '/', 'h', '3'])) ++ ['>']
            from by simp [hCls], reverse_append_last]
      rw [wrapBlock, hstrip, if_neg (by simp [hOpn]),
        if_pos (by simp [hOpn, leadsWith])]
  | p t =>
    obtain ⟨hplain, hne⟩ := he
    obtain ⟨c, T', hT', hcws⟩ := stripL_head t.data hne
    have hch : plainChar c = true :=
      plain_stripL t.data hplain c (hT' ▸ List.mem_cons_self c T')
    have hclt : c ≠ '<' := by
      intro he'
      rw [he'] at hch
      exact absurd hch (by decide)
    simp only [stageBlock, canonHtml]
    have hclt' : ¬ (('<' : Char) = c) := fun h => hclt h.symm
    rw [wrapBlock, stripL_idem, if_neg (by rw [hT']; simp),
      if_neg (by rw [hT']; simp [leadsWith, hclt'])]
  | strong t => exact he.elim
  | em t => exact he.elim
  | u t => exact he.elim

/-- The paragraph step maps final-stage blocks to canonical lines. -/
theorem filterMap_wrap_stage : ∀ (frag : List Elem), (∀ e ∈ frag, blockPlain e) →
    frag.filterMap (fun e => wrapBlock (stageBlock 3 e)) = frag.map canonHtml := by
  intro frag
  induction frag with
  | nil => intro _; rfl
  | cons e rest ih =>
    intro hbp
    rw [List.filterMap_cons, wrap_stage e (hbp e (List.mem_cons_self e rest)),
      List.map_cons, ih (fun x hx => hbp x (List.mem_cons_of_mem e hx))]

/-- Claim C7 counterexample: a fragment containing an inline element
(`strong`) next to a paragraph does not round trip element by element —
`_html_to_markdown` concatenates the inline run and the paragraph text
with no separator, so the paragraph `p2` never reappears as its own
`<p>` element. -/
theorem claim_C7_counterexample :
    markdownToHtml (htmlToMarkdown [Elem.strong "s", Elem.p "p2"]) =
        "<p><strong>s</strong>p2</p>" ∧
      hasSub "<p>p2</p>".data
        (markdownToHtml (htmlToMarkdown [Elem.strong "s", Elem.p "p2"])).data =
        false :=
  ⟨by decide, by decide⟩

/-- Claim C7 (amended): for fragments of headings of levels 1-3 and
non-empty paragraphs whose text is pattern-free, the round trip
HTML → markup → HTML regenerates exactly the canonical serialisation:
each heading reappears as the same heading element and each paragraph
as a `<p>` element with the same trimmed text, one line per element.
Headings of levels 4-6 are lossy on the return trip: they come back as
plain paragraphs keeping their literal hashes. -/
theorem claim_C7 (frag : List Elem) (hbp : ∀ e ∈ frag, blockPlain e) :
    markdownToHtml (htmlToMarkdown frag) = ⟨joinNl (frag.map canonHtml)⟩ ∧
      markdownToHtml (htmlToMarkdown [Elem.h 4 "t"]) = "<p>#### t</p>" ∧
      markdownToHtml (htmlToMarkdown [Elem.h 5 "t"]) = "<p>##### t</p>" ∧
      markdownToHtml (htmlToMarkdown [Elem.h 6 "t"]) = "<p>###### t</p>" := by
  refine ⟨?_, by decide, by decide, by decide⟩
  by_cases hne : frag = []
  · subst hne
    decide
  · apply String.ext
    rw [markdownToHtml, data_mk, data_mk, htmlToMarkdown, data_mk,
      markup_blocks frag hne hbp, markdownToHtmlL, substituted, headsubbed,
      show headPass 1 "<h1>".data "</h1>".data
          (blankJoin (frag.map (stageBlock 0))) =
          blankJoin (frag.map (stageBlock 1)) from headPass_stage 0 frag hne hbp,
      show headPass 2 "<h2>".data "</h2>".data
          (blankJoin (frag.map (stageBlock 1))) =
          blankJoin (frag.map (stageBlock 2)) from headPass_stage 1 frag hne hbp,
      show headPass 3 "<h3>".data "</h3>".data
          (blankJoin (frag.map (stageBlock 2))) =
          blankJoin (frag.map (stageBlock 3)) from headPass_stage 2 frag hne hbp]
    have hstar : '*' ∉ blankJoin (frag.map (stageBlock 3)) := by
      intro hmem
      rcases mem_blankJoin '*' _ hmem with h | ⟨b, hb, hxb⟩
      · exact absurd h (by decide)
      · obtain ⟨e, he, rfl⟩ := List.mem_map.mp hb
        exact stage_block_no_char 3 e (hbp e he) '*' (by decide) (by decide)
          (by decide) (by decide) (by decide) (by decide) (by decide) (by decide)
          (by decide) (by decide) hxb
    have hund : '_' ∉ blankJoin (frag.map (stageBlock 3)) := by
      intro hmem
      rcases mem_blankJoin '_' _ hmem with h | ⟨b, hb, hxb⟩
      · exact absurd h (by decide)
      · obtain ⟨e, he, rfl⟩ := List.mem_map.mp hb
        exact stage_block_no_char 3 e (hbp e he) '_' (by decide) (by decide)
          (by decide) (by decide) (by decide) (by decide) (by decide) (by decide)
          (by decide) (by decide) hxb
    have hnlb : ∀ b ∈ frag.map (stageBlock 3), '\n' ∉ b := by
      intro b hb
      obtain ⟨e, he, rfl⟩ := List.mem_map.mp hb
      exact stage_block_no_char 3 e (hbp e he) '\n' (by decide) (by decide)
        (by decide) (by decide) (by decide) (by decide) (by decide) (by decide)
        (by decide) (by decide)
    rw [boldPass, pairFuel_id _ _ _ _ _ le_rfl hstar, emPass,
      emFuel_id _ _ _ _ le_rfl hstar, uPass, pairFuel_id _ _ _ _ _ le_rfl hund,
      wrapParas, splitBlank_blankJoin _ (by simpa using hne) hnlb,
      List.filterMap_map,
      show List.filterMap (wrapBlock ∘ stageBlock 3) frag =
        List.map canonHtml frag from filterMap_wrap_stage frag hbp]

/-- Witness for claim C7: a concrete heading-and-paragraph fragment
satisfies the hypotheses, and its round trip is the canonical two-line
HTML. -/
theorem claim_C7_witness :
    (∀ e ∈ [Elem.h 1 " Title ", Elem.p "Body"], blockPlain e) ∧
      markdownToHtml (htmlToMarkdown [Elem.h 1 " Title ", Elem.p "Body"]) =
        ⟨joinNl ([Elem.h 1 " Title ", Elem.p "Body"].map canonHtml)⟩ ∧
      (⟨joinNl ([Elem.h 1 " Title ", Elem.p "Body"].map canonHtml)⟩ : String) =
        "<h1>Title</h1>\n<p>Body</p>" :=
  have hbp : ∀ e ∈ [Elem.h 1 " Title ", Elem.p "Body"], blockPlain e := by
    intro e he
    rcases List.mem_cons.mp he with rfl | he2
    · exact ⟨Or.inl rfl, by decide, by decide⟩
    · rcases List.mem_cons.mp he2 with rfl | he3
      · exact ⟨by decide, by decide⟩
      · exact absurd he3 (by simp)
  ⟨hbp, (claim_C7 [Elem.h 1 " Title ", Elem.p "Body"] hbp).1, by decide⟩


end Epub
